import Mathlib

/-!
# async_tools: `internalMap`, `SyncMap`, `RWMap`

A shallow embedding of `map.go` (package `async_tools`) and the properties of
the three tables it defines.

Modelling choices, all read off the Go source:

* `*T` is `Ptr T`: either `nil` or a reference to a cell.  No code in the
  package writes through a pointer, and `Store` takes its argument by value and
  keeps `&value`, so a non-nil pointer is identified with the content of its
  cell.
* `map[string]*T` is `Option (GoMap T)`: `none` is the nil map, `some m` a map
  whose keys are pairwise distinct.  The Go built-ins are `mapIndex`
  (`t, ok := m[k]`), `mapAssign` (`m[k] = p`, which panics on a nil map),
  `mapDelete` (`delete(m, k)`, a no-op on a nil map) and `for k, v := range m`.
* the order of `range` over a map is chosen by the runtime: `IterOrder`.
* a call either returns or panics: `Res`.  A wrapper method that never returns
  (its `Lock` blocks for ever) yields `none`.
* a callback is a closure: it owns a state of type `σ` and, each time it is
  invoked, returns a `bool` or panics.  A `Callback` does not call back into the
  table; a `ReCallback` may call the methods of the container it iterates over,
  and then may never return.
* threads are interleaved call by call: a schedule is a list of calls, each
  tagged with its thread, made one at a time.
-/

namespace AsyncTools

/-! ## Pointers and results -/

/-- A Go pointer `*T`: `nil`, or a reference to a cell holding a `T`. -/
inductive Ptr (T : Type) where
  | nil : Ptr T
  | ref (cell : T) : Ptr T
deriving DecidableEq, Repr

/-- The ways a call can end: it returns, or it panics with a message. -/
inductive Res (R : Type) where
  | ret (r : R) : Res R
  | panic (msg : String) : Res R
deriving DecidableEq, Repr

/-! ## The built-in map -/

/-- The keys of a list of entries. -/
def keysOf {T : Type} (l : List (String × Ptr T)) : List String :=
  l.map Prod.fst

/-- A non-nil Go map `map[string]*T`: finitely many entries, no key twice. -/
structure GoMap (T : Type) where
  entries : List (String × Ptr T)
  nodup : (keysOf entries).Nodup

/-- Remove every entry of key `k` from a list of entries. -/
def eraseKey {T : Type} (k : String) (l : List (String × Ptr T)) :
    List (String × Ptr T) :=
  l.filter (fun e => !(e.1 == k))

/-- First value bound to `k` in a list of entries. -/
def findKey {T : Type} (k : String) : List (String × Ptr T) → Option (Ptr T)
  | [] => none
  | (k1, p) :: rest => if k1 = k then some p else findKey k rest

/-- The literal `map[string]*T{}`. -/
def GoMap.empty {T : Type} : GoMap T :=
  ⟨[], List.nodup_nil⟩

/-- The map after `m[k] = p` on a non-nil map: the binding of `k` is replaced or added. -/
def GoMap.insert {T : Type} (m : GoMap T) (k : String) (p : Ptr T) : GoMap T :=
  ⟨(k, p) :: eraseKey k m.entries, by
    have h1 : k ∉ keysOf (eraseKey k m.entries) := by simp [keysOf, eraseKey]
    have h2 : (keysOf (eraseKey k m.entries)).Nodup :=
      m.nodup.sublist ((List.filter_sublist m.entries).map Prod.fst)
    exact List.nodup_cons.2 ⟨h1, h2⟩⟩

/-- The map after `delete(m, k)` on a non-nil map. -/
def GoMap.erase {T : Type} (m : GoMap T) (k : String) : GoMap T :=
  ⟨eraseKey k m.entries, m.nodup.sublist ((List.filter_sublist m.entries).map Prod.fst)⟩

/-- Go `t, ok := m[k]`: on a nil map or a missing key, the zero value `nil` and `false`. -/
def mapIndex {T : Type} (m : Option (GoMap T)) (k : String) : Ptr T × Bool :=
  match m with
  | none => (Ptr.nil, false)
  | some g =>
    match findKey k g.entries with
    | some p => (p, true)
    | none => (Ptr.nil, false)

/-- Go `m[k] = p`: panics on a nil map. -/
def mapAssign {T : Type} (m : Option (GoMap T)) (k : String) (p : Ptr T) :
    Res (Option (GoMap T)) :=
  match m with
  | none => Res.panic "assignment to entry in nil map"
  | some g => Res.ret (some (g.insert k p))

/-- Go `delete(m, k)`: a no-op on a nil map and on a missing key. -/
def mapDelete {T : Type} (m : Option (GoMap T)) (k : String) : Option (GoMap T) :=
  match m with
  | none => none
  | some g => some (g.erase k)

/-- The entries a `range` over the map can produce: none for a nil map. -/
def mapEntries {T : Type} (m : Option (GoMap T)) : List (String × Ptr T) :=
  match m with
  | none => []
  | some g => g.entries

/-- The order in which the runtime iterates over a map: any permutation of its entries. -/
structure IterOrder (T : Type) where
  pick : List (String × Ptr T) → List (String × Ptr T)
  perm : ∀ l, (pick l).Perm l

/-- The iteration order that follows the stored list. -/
def IterOrder.stored {T : Type} : IterOrder T :=
  ⟨fun l => l, fun l => List.Perm.refl l⟩

/-- The iteration order that follows the stored list backwards. -/
def IterOrder.backwards {T : Type} : IterOrder T :=
  ⟨fun l => l.reverse, fun l => List.reverse_perm l⟩

/-! ## `internalMap` -/

/-- The struct `internalMap[T]`: its one field `dirty`, nil in the zero value. -/
structure internalMap (T : Type) where
  dirty : Option (GoMap T)

/-- The zero value `internalMap[T]{}`. -/
def internalMap.zero {T : Type} : internalMap T :=
  ⟨none⟩

/-- Method `init`: `if s.dirty == nil { s.dirty = map[string]*T{} }`. -/
def internalMap.init {T : Type} (s : internalMap T) : internalMap T :=
  match s.dirty with
  | none => ⟨some GoMap.empty⟩
  | some _ => s

/-- Method `Load`. -/
def internalMap.Load {T : Type} (s : internalMap T) (key : String) :
    Res (Ptr T × Bool) × internalMap T :=
  let s1 := s.init
  let (t, ok) := mapIndex s1.dirty key
  (Res.ret (t, ok), s1)

/-- Method `Store`: `s.dirty[key] = &value`. -/
def internalMap.Store {T : Type} (s : internalMap T) (key : String) (value : T) :
    Res Unit × internalMap T :=
  let s1 := s.init
  match mapAssign s1.dirty key (Ptr.ref value) with
  | Res.ret d => (Res.ret (), ⟨d⟩)
  | Res.panic msg => (Res.panic msg, s1)

/-- Method `LoadAndDelete`. -/
def internalMap.LoadAndDelete {T : Type} (s : internalMap T) (key : String) :
    Res (Ptr T × Bool) × internalMap T :=
  let s1 := s.init
  let (t, ok) := mapIndex s1.dirty key
  let s2 : internalMap T := ⟨mapDelete s1.dirty key⟩
  if !ok then (Res.ret (Ptr.nil, false), s2)
  else (Res.ret (t, ok), s2)

/-- Method `Delete`. -/
def internalMap.Delete {T : Type} (s : internalMap T) (key : String) :
    Res Unit × internalMap T :=
  let s1 := s.init
  (Res.ret (), ⟨mapDelete s1.dirty key⟩)

/-- Method `LoadOrStore`; the result `actual any` always holds a `*T`. -/
def internalMap.LoadOrStore {T : Type} (s : internalMap T) (key : String) (value : T) :
    Res (Ptr T × Bool) × internalMap T :=
  let s1 := s.init
  let (t, ok) := mapIndex s1.dirty key
  if ok then (Res.ret (t, ok), s1)
  else
    match mapAssign s1.dirty key (Ptr.ref value) with
    | Res.ret d => (Res.ret (Ptr.ref value, false), ⟨d⟩)
    | Res.panic msg => (Res.panic msg, s1)

/-- A callback `f func(key string, value *T) bool`: a closure over a state `σ`
that returns a `bool` or panics. -/
abbrev Callback (T σ : Type) := σ → String → Ptr T → Res Bool × σ

/-- One invocation of the callback: the arguments it received and how it ended. -/
structure Call (T : Type) where
  key : String
  value : Ptr T
  result : Res Bool
deriving DecidableEq, Repr

/-- What a `Range` leaves behind: how it ended, the invocations of the callback
in the order they were made, and the state of the closure afterwards. -/
structure RangeOut (T σ : Type) where
  res : Res Unit
  calls : List (Call T)
  env : σ

/-- The loop `for k, v := range m { if !f(k, v) { break } }` over the entries in
the order the runtime produces them. -/
def rangeLoop {T σ : Type} (f : Callback T σ) : List (String × Ptr T) → σ → RangeOut T σ
  | [], c => ⟨Res.ret (), [], c⟩
  | (k, v) :: rest, c =>
    match f c k v with
    | (Res.ret true, c1) =>
      let out := rangeLoop f rest c1
      ⟨out.res, ⟨k, v, Res.ret true⟩ :: out.calls, out.env⟩
    | (Res.ret false, c1) => ⟨Res.ret (), [⟨k, v, Res.ret false⟩], c1⟩
    | (Res.panic msg, c1) => ⟨Res.panic msg, [⟨k, v, Res.panic msg⟩], c1⟩

/-- Method `Range`. -/
def internalMap.Range {T σ : Type} (s : internalMap T) (ord : IterOrder T)
    (f : Callback T σ) (c : σ) : RangeOut T σ × internalMap T :=
  let s1 := s.init
  (rangeLoop f (ord.pick (mapEntries s1.dirty)) c, s1)

/-! ## Locks -/

/-- A `sync.Mutex`; the zero value is unlocked. -/
inductive Mutex where
  | unlocked : Mutex
  | locked : Mutex
deriving DecidableEq, Repr

/-- Call `mu.Lock()`: `none` when the mutex is held, since the caller then blocks. -/
def Mutex.Lock : Mutex → Option Mutex
  | Mutex.unlocked => some Mutex.locked
  | Mutex.locked => none

/-- Call `mu.Unlock()`: `none` is the fatal error of unlocking an unlocked mutex. -/
def Mutex.Unlock : Mutex → Option Mutex
  | Mutex.locked => some Mutex.unlocked
  | Mutex.unlocked => none

/-- A `sync.RWMutex`: the number of readers holding it and whether a writer
holds it; the zero value is free. -/
structure RWMutex where
  readers : Nat
  writer : Bool
deriving DecidableEq, Repr

/-- The zero value of `sync.RWMutex`. -/
def RWMutex.free : RWMutex :=
  ⟨0, false⟩

/-- Call `mu.RLock()`: blocks while a writer holds the lock. -/
def RWMutex.RLock (m : RWMutex) : Option RWMutex :=
  if m.writer then none else some ⟨m.readers + 1, m.writer⟩

/-- Call `mu.RUnlock()`: a fatal error when no reader holds the lock. -/
def RWMutex.RUnlock (m : RWMutex) : Option RWMutex :=
  if m.readers = 0 then none else some ⟨m.readers - 1, m.writer⟩

/-- Call `mu.Lock()`: blocks while a writer or a reader holds the lock. -/
def RWMutex.Lock (m : RWMutex) : Option RWMutex :=
  if m.writer || decide (0 < m.readers) then none else some ⟨m.readers, true⟩

/-- Call `mu.Unlock()`: a fatal error when no writer holds the lock. -/
def RWMutex.Unlock (m : RWMutex) : Option RWMutex :=
  if m.writer then some ⟨m.readers, false⟩ else none

/-! ## `SyncMap` -/

/-- The struct `SyncMap[T]`. -/
structure SyncMap (T : Type) where
  mu : Mutex
  dirty : internalMap T

/-- The zero value `SyncMap[T]{}`. -/
def SyncMap.zero {T : Type} : SyncMap T :=
  ⟨Mutex.unlocked, internalMap.zero⟩

/-- The frame every method of `SyncMap` has: `s.mu.Lock()`, `defer s.mu.Unlock()`,
then the call on `s.dirty`.  The deferred `Unlock` runs whether the call returns
or panics; `none` means that the method never returns. -/
def SyncMap.withLock {T X : Type} (s : SyncMap T)
    (body : internalMap T → X × internalMap T) : Option (X × SyncMap T) :=
  match s.mu.Lock with
  | none => none
  | some mu1 =>
    let (x, d) := body s.dirty
    match mu1.Unlock with
    | none => none
    | some mu2 => some (x, ⟨mu2, d⟩)

/-- Method `SyncMap.Load`. -/
def SyncMap.Load {T : Type} (s : SyncMap T) (key : String) :
    Option (Res (Ptr T × Bool) × SyncMap T) :=
  s.withLock (fun d => d.Load key)

/-- Method `SyncMap.Store`. -/
def SyncMap.Store {T : Type} (s : SyncMap T) (key : String) (value : T) :
    Option (Res Unit × SyncMap T) :=
  s.withLock (fun d => d.Store key value)

/-- Method `SyncMap.LoadAndDelete`. -/
def SyncMap.LoadAndDelete {T : Type} (s : SyncMap T) (key : String) :
    Option (Res (Ptr T × Bool) × SyncMap T) :=
  s.withLock (fun d => d.LoadAndDelete key)

/-- Method `SyncMap.Delete`. -/
def SyncMap.Delete {T : Type} (s : SyncMap T) (key : String) :
    Option (Res Unit × SyncMap T) :=
  s.withLock (fun d => d.Delete key)

/-- Method `SyncMap.LoadOrStore`. -/
def SyncMap.LoadOrStore {T : Type} (s : SyncMap T) (key : String) (value : T) :
    Option (Res (Ptr T × Bool) × SyncMap T) :=
  s.withLock (fun d => d.LoadOrStore key value)

/-- Method `SyncMap.Range`. -/
def SyncMap.Range {T σ : Type} (s : SyncMap T) (ord : IterOrder T)
    (f : Callback T σ) (c : σ) : Option (RangeOut T σ × SyncMap T) :=
  s.withLock (fun d => d.Range ord f c)

/-! ## `RWMap` -/

/-- The struct `RWMap[T]`. -/
structure RWMap (T : Type) where
  mu : RWMutex
  dirty : internalMap T

/-- The zero value `RWMap[T]{}`. -/
def RWMap.zero {T : Type} : RWMap T :=
  ⟨RWMutex.free, internalMap.zero⟩

/-- The frame of the writer methods of `RWMap`: `s.mu.Lock()`,
`defer s.mu.Unlock()`, then the call on `s.dirty`. -/
def RWMap.withLock {T X : Type} (s : RWMap T)
    (body : internalMap T → X × internalMap T) : Option (X × RWMap T) :=
  match s.mu.Lock with
  | none => none
  | some mu1 =>
    let (x, d) := body s.dirty
    match mu1.Unlock with
    | none => none
    | some mu2 => some (x, ⟨mu2, d⟩)

/-- The frame of `RWMap.Load` and `RWMap.Range`: `s.mu.RLock()`,
`defer s.mu.RUnlock()`, then the call on `s.dirty`. -/
def RWMap.withRLock {T X : Type} (s : RWMap T)
    (body : internalMap T → X × internalMap T) : Option (X × RWMap T) :=
  match s.mu.RLock with
  | none => none
  | some mu1 =>
    let (x, d) := body s.dirty
    match mu1.RUnlock with
    | none => none
    | some mu2 => some (x, ⟨mu2, d⟩)

/-- Method `RWMap.Load`: under the read lock. -/
def RWMap.Load {T : Type} (s : RWMap T) (key : String) :
    Option (Res (Ptr T × Bool) × RWMap T) :=
  s.withRLock (fun d => d.Load key)

/-- Method `RWMap.Store`. -/
def RWMap.Store {T : Type} (s : RWMap T) (key : String) (value : T) :
    Option (Res Unit × RWMap T) :=
  s.withLock (fun d => d.Store key value)

/-- Method `RWMap.LoadAndDelete`. -/
def RWMap.LoadAndDelete {T : Type} (s : RWMap T) (key : String) :
    Option (Res (Ptr T × Bool) × RWMap T) :=
  s.withLock (fun d => d.LoadAndDelete key)

/-- Method `RWMap.Delete`. -/
def RWMap.Delete {T : Type} (s : RWMap T) (key : String) :
    Option (Res Unit × RWMap T) :=
  s.withLock (fun d => d.Delete key)

/-- Method `RWMap.LoadOrStore`. -/
def RWMap.LoadOrStore {T : Type} (s : RWMap T) (key : String) (value : T) :
    Option (Res (Ptr T × Bool) × RWMap T) :=
  s.withLock (fun d => d.LoadOrStore key value)

/-- Method `RWMap.Range`: under the read lock. -/
def RWMap.Range {T σ : Type} (s : RWMap T) (ord : IterOrder T)
    (f : Callback T σ) (c : σ) : Option (RangeOut T σ × RWMap T) :=
  s.withRLock (fun d => d.Range ord f c)

/-! ## Sequences of operations -/

/-- The contents of a table: the entries its mapping holds (a nil mapping holds none). -/
def internalMap.contents {T : Type} (s : internalMap T) : List (String × Ptr T) :=
  mapEntries s.dirty

/-- One call on a table: the method and its arguments.  A `Range` comes with the
order the runtime picks for it, its callback and the state of the closure. -/
inductive Op (T σ : Type) where
  | load (key : String) : Op T σ
  | store (key : String) (value : T) : Op T σ
  | delete (key : String) : Op T σ
  | loadAndDelete (key : String) : Op T σ
  | loadOrStore (key : String) (value : T) : Op T σ
  | range (ord : IterOrder T) (f : Callback T σ) (c : σ) : Op T σ

/-- What one call gives back to its caller. -/
inductive OpResult (T σ : Type) where
  | pair (r : Res (Ptr T × Bool)) : OpResult T σ
  | unit (r : Res Unit) : OpResult T σ
  | ranged (out : RangeOut T σ) : OpResult T σ

/-- Perform one call on an `internalMap`. -/
def internalMap.apply {T σ : Type} (s : internalMap T) : Op T σ → OpResult T σ × internalMap T
  | Op.load k => ((s.Load k).1 |> OpResult.pair, (s.Load k).2)
  | Op.store k v => ((s.Store k v).1 |> OpResult.unit, (s.Store k v).2)
  | Op.delete k => ((s.Delete k).1 |> OpResult.unit, (s.Delete k).2)
  | Op.loadAndDelete k => ((s.LoadAndDelete k).1 |> OpResult.pair, (s.LoadAndDelete k).2)
  | Op.loadOrStore k v => ((s.LoadOrStore k v).1 |> OpResult.pair, (s.LoadOrStore k v).2)
  | Op.range ord f c => ((s.Range ord f c).1 |> OpResult.ranged, (s.Range ord f c).2)

/-- Perform one call on a `SyncMap`; `none` when the call never returns. -/
def SyncMap.apply {T σ : Type} (s : SyncMap T) : Op T σ → Option (OpResult T σ × SyncMap T)
  | Op.load k => (s.Load k).map (fun r => (OpResult.pair r.1, r.2))
  | Op.store k v => (s.Store k v).map (fun r => (OpResult.unit r.1, r.2))
  | Op.delete k => (s.Delete k).map (fun r => (OpResult.unit r.1, r.2))
  | Op.loadAndDelete k => (s.LoadAndDelete k).map (fun r => (OpResult.pair r.1, r.2))
  | Op.loadOrStore k v => (s.LoadOrStore k v).map (fun r => (OpResult.pair r.1, r.2))
  | Op.range ord f c => (s.Range ord f c).map (fun r => (OpResult.ranged r.1, r.2))

/-- Perform one call on an `RWMap`; `none` when the call never returns. -/
def RWMap.apply {T σ : Type} (s : RWMap T) : Op T σ → Option (OpResult T σ × RWMap T)
  | Op.load k => (s.Load k).map (fun r => (OpResult.pair r.1, r.2))
  | Op.store k v => (s.Store k v).map (fun r => (OpResult.unit r.1, r.2))
  | Op.delete k => (s.Delete k).map (fun r => (OpResult.unit r.1, r.2))
  | Op.loadAndDelete k => (s.LoadAndDelete k).map (fun r => (OpResult.pair r.1, r.2))
  | Op.loadOrStore k v => (s.LoadOrStore k v).map (fun r => (OpResult.pair r.1, r.2))
  | Op.range ord f c => (s.Range ord f c).map (fun r => (OpResult.ranged r.1, r.2))

/-- Perform the calls one after the other on an `internalMap`: the result of every
call, in order, and the table at the end. -/
def internalMap.run {T σ : Type} (s : internalMap T) :
    List (Op T σ) → List (OpResult T σ) × internalMap T
  | [] => ([], s)
  | op :: ops =>
    let (r, s1) := s.apply op
    let (rs, s2) := internalMap.run s1 ops
    (r :: rs, s2)

/-- Perform the calls one after the other on a `SyncMap`; `none` when one of them
never returns. -/
def SyncMap.run {T σ : Type} (s : SyncMap T) :
    List (Op T σ) → Option (List (OpResult T σ) × SyncMap T)
  | [] => some ([], s)
  | op :: ops =>
    match s.apply op with
    | none => none
    | some (r, s1) =>
      match SyncMap.run s1 ops with
      | none => none
      | some (rs, s2) => some (r :: rs, s2)

/-- Perform the calls one after the other on an `RWMap`; `none` when one of them
never returns. -/
def RWMap.run {T σ : Type} (s : RWMap T) :
    List (Op T σ) → Option (List (OpResult T σ) × RWMap T)
  | [] => some ([], s)
  | op :: ops =>
    match s.apply op with
    | none => none
    | some (r, s1) =>
      match RWMap.run s1 ops with
      | none => none
      | some (rs, s2) => some (r :: rs, s2)

/-- The map a method works on once `init` has run. -/
def internalMap.table {T : Type} (s : internalMap T) : GoMap T :=
  match s.dirty with
  | none => GoMap.empty
  | some g => g

/-- A table holding the one entry `"a" ↦ &1`, built by `Store` from the zero value. -/
def tableA : internalMap Nat :=
  (internalMap.zero.Store "a" 1).2

/-- A table holding `"a" ↦ &1` and `"b" ↦ &2`, built by `Store` from the zero value. -/
def tableAB : internalMap Nat :=
  (tableA.Store "b" 2).2

/-- A callback that counts its invocations and always returns true. -/
def countAll : Callback Nat Nat :=
  fun c _ _ => (Res.ret true, c + 1)

/-- A callback that counts its invocations and always returns false. -/
def countFirst : Callback Nat Nat :=
  fun c _ _ => (Res.ret false, c + 1)

/-- A callback that panics when it is invoked. -/
def panicAtOnce : Callback Nat Nat :=
  fun c _ _ => (Res.panic "boom", c)

/-! ## Threads on disjoint keys -/

/-- A call of one of the three methods `Load`, `Store`, `Delete`. -/
inductive KeyOp (T : Type) where
  | load (key : String) : KeyOp T
  | store (key : String) (value : T) : KeyOp T
  | delete (key : String) : KeyOp T
deriving DecidableEq, Repr

/-- The key a call is about. -/
def KeyOp.key {T : Type} : KeyOp T → String
  | KeyOp.load k => k
  | KeyOp.store k _ => k
  | KeyOp.delete k => k

/-- The call as an `Op`. -/
def KeyOp.toOp {T : Type} : KeyOp T → Op T Unit
  | KeyOp.load k => Op.load k
  | KeyOp.store k v => Op.store k v
  | KeyOp.delete k => Op.delete k

/-- Whether the call writes the key `k`. -/
def KeyOp.writes {T : Type} (k : String) : KeyOp T → Bool
  | KeyOp.load _ => false
  | KeyOp.store k1 _ => k1 == k
  | KeyOp.delete k1 => k1 == k

/-- The calls of a schedule in the order the lock serialises them; every call is
tagged with the thread that makes it. -/
def callsOf {T : Type} (sched : List (Nat × KeyOp T)) : List (Op T Unit) :=
  sched.map (fun a => a.2.toOp)

/-- The calls thread `i` makes, in its program order. -/
def threadOf {T : Type} (i : Nat) (sched : List (Nat × KeyOp T)) : List (KeyOp T) :=
  (sched.filter (fun a => a.1 == i)).map (fun a => a.2)

/-- Of the results of a schedule, those of the calls of thread `i`. -/
def resultsOf {T : Type} (i : Nat) (sched : List (Nat × KeyOp T))
    (rs : List (OpResult T Unit)) : List (OpResult T Unit) :=
  ((sched.zip rs).filter (fun x => x.1.1 == i)).map (fun x => x.2)

/-- The last write to `k` in a program, if it has one. -/
def lastWrite {T : Type} (k : String) (prog : List (KeyOp T)) : Option (KeyOp T) :=
  prog.reverse.find? (KeyOp.writes k)

/-- What `Load(k)` is to return after a program whose last write to `k` is the
given one: the stored value, absent after a `Delete`, and what it returned at the
start when the program never writes `k`. -/
def afterLastWrite {T : Type} (start : Res (Ptr T × Bool)) :
    Option (KeyOp T) → Res (Ptr T × Bool)
  | some (KeyOp.store _ v) => Res.ret (Ptr.ref v, true)
  | some (KeyOp.delete _) => Res.ret (Ptr.nil, false)
  | _ => start

/-- Two threads: thread 0 works on `"a"`, thread 1 on `"b"`. -/
def twoThreads : List (Nat × KeyOp Nat) :=
  [(0, KeyOp.store "a" 1), (1, KeyOp.store "b" 2), (1, KeyOp.load "b"),
    (0, KeyOp.delete "a"), (1, KeyOp.store "b" 3), (0, KeyOp.load "a")]

/-! ## Callbacks that reach the container

A closure passed to `Range` may have captured the container it is passed to, and
call its methods.  `ReCallback T σ C` is such a closure: at each invocation it is
given the container `C` as it is at that moment, and it yields `none` when it never
returns (a method it called blocks for ever).  Under `SyncMap` and `RWMap` a method
called from inside the callback either blocks or leaves the container as it found
it, so the callback has no effect on the container the loop goes on with.
-/

/-- A callback that can see the container of type `C` it iterates over. -/
abbrev ReCallback (T σ C : Type) := σ → String → Ptr T → C → Option (Res Bool × σ)

/-- The loop of `Range` with a callback that sees the container `view`; `none`
when an invocation never returns. -/
def rangeLoopRe {T σ C : Type} (f : ReCallback T σ C) (view : C) :
    List (String × Ptr T) → σ → Option (RangeOut T σ)
  | [], c => some ⟨Res.ret (), [], c⟩
  | (k, v) :: rest, c =>
    match f c k v view with
    | none => none
    | some (Res.ret true, c1) =>
      match rangeLoopRe f view rest c1 with
      | none => none
      | some out => some ⟨out.res, ⟨k, v, Res.ret true⟩ :: out.calls, out.env⟩
    | some (Res.ret false, c1) => some ⟨Res.ret (), [⟨k, v, Res.ret false⟩], c1⟩
    | some (Res.panic msg, c1) => some ⟨Res.panic msg, [⟨k, v, Res.panic msg⟩], c1⟩

/-- Method `internalMap.Range` with a callback that sees the table. -/
def internalMap.RangeRe {T σ : Type} (s : internalMap T) (ord : IterOrder T)
    (f : ReCallback T σ (internalMap T)) (c : σ) : Option (RangeOut T σ × internalMap T) :=
  let s1 := s.init
  match rangeLoopRe f s1 (ord.pick (mapEntries s1.dirty)) c with
  | none => none
  | some out => some (out, s1)

/-- Method `SyncMap.Range` with a callback that sees the `SyncMap`: `s.mu.Lock()`,
`defer s.mu.Unlock()`, `s.dirty.Range(f)`.  While `s.dirty.Range` runs the mutex
is the one `Lock` left; the deferred `Unlock` runs only if it returns. -/
def SyncMap.RangeRe {T σ : Type} (s : SyncMap T) (ord : IterOrder T)
    (f : ReCallback T σ (SyncMap T)) (c : σ) : Option (RangeOut T σ × SyncMap T) :=
  match s.mu.Lock with
  | none => none
  | some mu1 =>
    match s.dirty.RangeRe ord (fun c1 k v d => f c1 k v ⟨mu1, d⟩) c with
    | none => none
    | some (out, d) =>
      match mu1.Unlock with
      | none => none
      | some mu2 => some (out, ⟨mu2, d⟩)

/-- Method `RWMap.Range` with a callback that sees the `RWMap`: `s.mu.RLock()`,
`defer s.mu.RUnlock()`, `s.dirty.Range(f)`. -/
def RWMap.RangeRe {T σ : Type} (s : RWMap T) (ord : IterOrder T)
    (f : ReCallback T σ (RWMap T)) (c : σ) : Option (RangeOut T σ × RWMap T) :=
  match s.mu.RLock with
  | none => none
  | some mu1 =>
    match s.dirty.RangeRe ord (fun c1 k v d => f c1 k v ⟨mu1, d⟩) c with
    | none => none
    | some (out, d) =>
      match mu1.RUnlock with
      | none => none
      | some mu2 => some (out, ⟨mu2, d⟩)

/-- The callback `func(k string, v *int) bool { m.Load(k); return true }` around a
`SyncMap` `m`. -/
def callsLoad : ReCallback Nat Unit (SyncMap Nat) :=
  fun c k _ m =>
    match m.Load k with
    | none => none
    | some _ => some (Res.ret true, c)

/-- The callback `func(k string, v *int) bool { m.Store(k, 0); return true }` around
an `RWMap` `m`. -/
def callsStore : ReCallback Nat Unit (RWMap Nat) :=
  fun c k _ m =>
    match m.Store k 0 with
    | none => none
    | some _ => some (Res.ret true, c)

/-- The callback `func(k string, v *int) bool { m.Load(k); return true }` around an
`RWMap` `m`. -/
def callsRLoad : ReCallback Nat Unit (RWMap Nat) :=
  fun c k _ m =>
    match m.Load k with
    | none => none
    | some _ => some (Res.ret true, c)

/-- The callback `func(k string, v *int) bool { m.Load(k); return true }` around an
`internalMap` `m`, whose `Load` takes no lock and always returns. -/
def callsTLoad : ReCallback Nat Unit (internalMap Nat) :=
  fun c k _ m =>
    match m.Load k with
    | (_, _) => some (Res.ret true, c)

/-! ## Facts about the built-in map -/

theorem findKey_eraseKey_self {T : Type} (k : String) (l : List (String × Ptr T)) :
    findKey k (eraseKey k l) = none := by
  induction l with
  | nil => rfl
  | cons e rest ih =>
    obtain ⟨k1, p⟩ := e
    by_cases h : k1 = k
    · simpa [eraseKey, h] using ih
    · simpa [eraseKey, h, findKey] using ih

theorem findKey_eraseKey_ne {T : Type} {k k2 : String} (h : k2 ≠ k)
    (l : List (String × Ptr T)) : findKey k2 (eraseKey k l) = findKey k2 l := by
  induction l with
  | nil => rfl
  | cons e rest ih =>
    obtain ⟨k1, p⟩ := e
    by_cases h1 : k1 = k
    · subst h1
      have h2 : ¬ k1 = k2 := fun e => h e.symm
      simpa [eraseKey, findKey, h2] using ih
    · by_cases h2 : k1 = k2
      · subst h2
        simp [eraseKey, h1, findKey]
      · simpa [eraseKey, h1, findKey, h2] using ih

theorem eraseKey_of_findKey_none {T : Type} {k : String} {l : List (String × Ptr T)}
    (h : findKey k l = none) : eraseKey k l = l := by
  induction l with
  | nil => rfl
  | cons e rest ih =>
    obtain ⟨k1, p⟩ := e
    by_cases h1 : k1 = k
    · simp [findKey, h1] at h
    · simp only [findKey, h1, if_false] at h
      have := ih h
      simp only [eraseKey] at this
      simp [eraseKey, h1, this]

theorem findKey_eq_none_iff {T : Type} (k : String) (l : List (String × Ptr T)) :
    findKey k l = none ↔ k ∉ keysOf l := by
  induction l with
  | nil => simp [findKey, keysOf]
  | cons e rest ih =>
    obtain ⟨k1, p⟩ := e
    by_cases h1 : k1 = k
    · simp [findKey, keysOf, h1]
    · have h2 : ¬ k = k1 := fun e => h1 e.symm
      simpa [findKey, keysOf, h1, h2] using ih

theorem mem_of_findKey_eq_some {T : Type} {k : String} {p : Ptr T}
    {l : List (String × Ptr T)} (h : findKey k l = some p) : (k, p) ∈ l := by
  induction l with
  | nil => simp [findKey] at h
  | cons e rest ih =>
    obtain ⟨k1, p1⟩ := e
    by_cases h1 : k1 = k
    · simp [findKey, h1] at h
      simp [h1, h]
    · simp only [findKey, h1, if_false] at h
      exact List.mem_cons_of_mem _ (ih h)

theorem findKey_eq_some_of_mem {T : Type} {k : String} {p : Ptr T}
    {l : List (String × Ptr T)} (nd : (keysOf l).Nodup) (h : (k, p) ∈ l) :
    findKey k l = some p := by
  induction l with
  | nil => simp at h
  | cons e rest ih =>
    obtain ⟨k1, p1⟩ := e
    have nd1 : k1 ∉ keysOf rest ∧ (keysOf rest).Nodup := by
      simpa [keysOf] using nd
    rcases List.mem_cons.1 h with h1 | h1
    · cases h1
      simp [findKey]
    · have hk : k ∈ keysOf rest := List.mem_map_of_mem Prod.fst h1
      have h2 : ¬ k1 = k := fun e => nd1.1 (e ▸ hk)
      simpa [findKey, h2] using ih nd1.2 h1

/-! ## Facts about the methods of `internalMap` -/

theorem mapIndex_insert_self {T : Type} (g : GoMap T) (k : String) (p : Ptr T) :
    mapIndex (some (g.insert k p)) k = (p, true) := by
  simp [mapIndex, GoMap.insert, findKey]

theorem mapIndex_erase_self {T : Type} (g : GoMap T) (k : String) :
    mapIndex (some (g.erase k)) k = (Ptr.nil, false) := by
  simp [mapIndex, GoMap.erase, findKey_eraseKey_self]

theorem mapIndex_init {T : Type} (s : internalMap T) (k : String) :
    mapIndex s.init.dirty k = mapIndex s.dirty k := by
  rcases s with ⟨_ | g⟩ <;> simp [internalMap.init, mapIndex, GoMap.empty, findKey]

theorem init_of_some {T : Type} (g : GoMap T) :
    (internalMap.mk (some g)).init = ⟨some g⟩ := rfl

theorem init_zero {T : Type} :
    (internalMap.mk (none : Option (GoMap T))).init = ⟨some GoMap.empty⟩ := rfl

theorem contents_init {T : Type} (s : internalMap T) : s.init.contents = s.contents := by
  rcases s with ⟨_ | g⟩ <;> simp [internalMap.init, internalMap.contents, mapEntries, GoMap.empty]

theorem Load_eq {T : Type} (s : internalMap T) (k : String) :
    s.Load k = (Res.ret (mapIndex s.dirty k), s.init) := by
  simp [internalMap.Load, mapIndex_init]

theorem Load_after_init {T : Type} (s : internalMap T) (k : String) :
    s.init.Load k = (Res.ret (mapIndex s.dirty k), s.init) := by
  rcases s with ⟨_ | g⟩ <;> simp [Load_eq, internalMap.init, mapIndex, GoMap.empty, findKey]


theorem init_eq_table {T : Type} (s : internalMap T) : s.init = ⟨some s.table⟩ := by
  rcases s with ⟨_ | g⟩ <;> rfl

theorem Store_eq {T : Type} (s : internalMap T) (k : String) (v : T) :
    s.Store k v = (Res.ret (), ⟨some (s.table.insert k (Ptr.ref v))⟩) := by
  simp [internalMap.Store, init_eq_table, mapAssign]

theorem Delete_eq {T : Type} (s : internalMap T) (k : String) :
    s.Delete k = (Res.ret (), ⟨some (s.table.erase k)⟩) := by
  simp [internalMap.Delete, init_eq_table, mapDelete]

theorem mapIndex_table {T : Type} (s : internalMap T) (k : String) :
    mapIndex (some s.table) k = mapIndex s.dirty k := by
  rcases s with ⟨_ | g⟩ <;> simp [internalMap.table, mapIndex, GoMap.empty, findKey]

theorem LoadAndDelete_eq {T : Type} (s : internalMap T) (k : String) :
    s.LoadAndDelete k =
      (Res.ret (if (mapIndex s.dirty k).2 then mapIndex s.dirty k else (Ptr.nil, false)),
        ⟨some (s.table.erase k)⟩) := by
  simp only [internalMap.LoadAndDelete, init_eq_table, mapDelete, mapIndex_table]
  cases h : (mapIndex s.dirty k).2
  · simp
  · simp
    exact Prod.ext (by rfl) (by simpa using h.symm)

theorem LoadOrStore_eq {T : Type} (s : internalMap T) (k : String) (v : T) :
    s.LoadOrStore k v =
      if (mapIndex s.dirty k).2 then (Res.ret (mapIndex s.dirty k), s.init)
      else (Res.ret (Ptr.ref v, false), ⟨some (s.table.insert k (Ptr.ref v))⟩) := by
  simp only [internalMap.LoadOrStore, mapIndex_init]
  cases h : (mapIndex s.dirty k).2
  · simp [init_eq_table, mapAssign]
  · simp
    exact Prod.ext (by rfl) (by simpa using h.symm)

theorem mapIndex_eq_findKey {T : Type} (s : internalMap T) (k : String) :
    mapIndex s.dirty k =
      match findKey k s.contents with
      | some p => (p, true)
      | none => (Ptr.nil, false) := by
  rcases s with ⟨_ | g⟩ <;> simp [mapIndex, internalMap.contents, mapEntries, findKey]

theorem findKey_none_of_absent {T : Type} {s : internalMap T} {k : String}
    (h : (mapIndex s.dirty k).2 = false) : findKey k s.contents = none := by
  rw [mapIndex_eq_findKey] at h
  cases hf : findKey k s.contents with
  | none => rfl
  | some p => simp [hf] at h

theorem contents_table {T : Type} (s : internalMap T) : s.table.entries = s.contents := by
  rcases s with ⟨_ | g⟩ <;> rfl

theorem mapIndex_erase_ne {T : Type} (g : GoMap T) {k k2 : String} (h : k2 ≠ k) :
    mapIndex (some (g.erase k)) k2 = mapIndex (some g) k2 := by
  simp [mapIndex, GoMap.erase, findKey_eraseKey_ne h]

theorem erase_of_absent {T : Type} {s : internalMap T} {k : String}
    (h : (mapIndex s.dirty k).2 = false) : s.table.erase k = s.table := by
  have h1 : eraseKey k s.table.entries = s.table.entries := by
    rw [contents_table]
    exact eraseKey_of_findKey_none (findKey_none_of_absent h)
  cases hg : s.table with
  | mk entries nodup =>
    rw [hg] at h1
    simp only [GoMap.erase]
    congr

theorem erase_erase {T : Type} (g : GoMap T) (k : String) :
    (g.erase k).erase k = g.erase k := by
  have h : eraseKey k (eraseKey k g.entries) = eraseKey k g.entries :=
    eraseKey_of_findKey_none (findKey_eraseKey_self k g.entries)
  simp only [GoMap.erase]
  congr

/-! ## The lock frames, entered with the lock free -/

theorem SyncMap.withLock_unlocked {T X : Type} (d : internalMap T)
    (body : internalMap T → X × internalMap T) :
    (SyncMap.mk Mutex.unlocked d).withLock body =
      some ((body d).1, ⟨Mutex.unlocked, (body d).2⟩) := rfl

theorem RWMap.withLock_free {T X : Type} (d : internalMap T)
    (body : internalMap T → X × internalMap T) :
    (RWMap.mk RWMutex.free d).withLock body =
      some ((body d).1, ⟨RWMutex.free, (body d).2⟩) := rfl

theorem RWMap.withRLock_free {T X : Type} (d : internalMap T)
    (body : internalMap T → X × internalMap T) :
    (RWMap.mk RWMutex.free d).withRLock body =
      some ((body d).1, ⟨RWMutex.free, (body d).2⟩) := rfl

/-! ## The properties of the tables -/

/-- C1 (round trip, overwrite): on every `internalMap`, and on every `SyncMap` and
`RWMap` whose lock is free, whatever the table holds (nothing at all, or already a
value for `k`), `Store(k, v)` returns and a following `Load(k)` returns a pointer
to `v` with `ok = true`. -/
theorem store_then_load {T : Type} (d : internalMap T) (k : String) (v : T) :
    ((d.Store k v).1 = Res.ret () ∧
      ((d.Store k v).2.Load k).1 = Res.ret (Ptr.ref v, true)) ∧
    (∃ s1 s2, (SyncMap.mk Mutex.unlocked d).Store k v = some (Res.ret (), s1) ∧
      s1.Load k = some (Res.ret (Ptr.ref v, true), s2)) ∧
    (∃ s1 s2, (RWMap.mk RWMutex.free d).Store k v = some (Res.ret (), s1) ∧
      s1.Load k = some (Res.ret (Ptr.ref v, true), s2)) := by
  have h1 : (d.Store k v).1 = Res.ret () := by rw [Store_eq]
  have h2 : ((d.Store k v).2.Load k).1 = Res.ret (Ptr.ref v, true) := by
    rw [Store_eq, Load_eq, mapIndex_insert_self]
  refine ⟨⟨h1, h2⟩, ?_, ?_⟩
  · refine ⟨⟨Mutex.unlocked, (d.Store k v).2⟩,
      ⟨Mutex.unlocked, ((d.Store k v).2.Load k).2⟩, ?_, ?_⟩
    · rw [SyncMap.Store, SyncMap.withLock_unlocked, h1]
    · rw [SyncMap.Load, SyncMap.withLock_unlocked, h2]
  · refine ⟨⟨RWMutex.free, (d.Store k v).2⟩,
      ⟨RWMutex.free, ((d.Store k v).2.Load k).2⟩, ?_, ?_⟩
    · rw [RWMap.Store, RWMap.withLock_free, h1]
    · rw [RWMap.Load, RWMap.withRLock_free, h2]

/-- C2 (LoadOrStore): when `k` is absent, `LoadOrStore(k, v)` returns a pointer to
`v` with `loaded = false` and a following `Load(k)` returns `(v, true)`; when `k`
is present with value `v`, `LoadOrStore(k, v2)` returns a pointer to `v` with
`loaded = true` and leaves the table as it was, whatever `v2` is. -/
theorem loadOrStore_semantics {T : Type} (d : internalMap T) (k : String) (v v2 : T) :
    ((d.Load k).1 = Res.ret (Ptr.nil, false) →
      (d.LoadOrStore k v).1 = Res.ret (Ptr.ref v, false) ∧
      ((d.LoadOrStore k v).2.Load k).1 = Res.ret (Ptr.ref v, true)) ∧
    ((d.Load k).1 = Res.ret (Ptr.ref v, true) →
      d.LoadOrStore k v2 = (Res.ret (Ptr.ref v, true), d) ∧
      ((d.LoadOrStore k v2).2.Load k).1 = Res.ret (Ptr.ref v, true)) := by
  constructor
  · intro h
    rw [Load_eq] at h
    have h1 : mapIndex d.dirty k = (Ptr.nil, false) := by simpa using h
    rw [LoadOrStore_eq]
    simp [h1, Load_eq, mapIndex_insert_self]
  · intro h
    rw [Load_eq] at h
    have h1 : mapIndex d.dirty k = (Ptr.ref v, true) := by simpa using h
    have h2 : d.init = d := by
      rcases d with ⟨_ | g⟩
      · simp [mapIndex] at h1
      · rfl
    rw [LoadOrStore_eq]
    simp [h1, h2, Load_eq]

/-- C3 (LoadAndDelete): when `k` is present with the pointer `p`,
`LoadAndDelete(k)` returns `(p, true)` and a following `Load(k)` returns
`(nil, false)`; when `k` is absent it returns `(nil, false)` and the table holds
the same entries as before, so that every `Load` returns what it returned before. -/
theorem loadAndDelete_semantics {T : Type} (d : internalMap T) (k : String) (p : Ptr T) :
    ((d.Load k).1 = Res.ret (p, true) →
      (d.LoadAndDelete k).1 = Res.ret (p, true) ∧
      ((d.LoadAndDelete k).2.Load k).1 = Res.ret (Ptr.nil, false)) ∧
    ((d.Load k).1 = Res.ret (Ptr.nil, false) →
      (d.LoadAndDelete k).1 = Res.ret (Ptr.nil, false) ∧
      (d.LoadAndDelete k).2.contents = d.contents ∧
      ∀ k2, ((d.LoadAndDelete k).2.Load k2).1 = (d.Load k2).1) := by
  constructor
  · intro h
    rw [Load_eq] at h
    have h1 : mapIndex d.dirty k = (p, true) := by simpa using h
    rw [LoadAndDelete_eq]
    simp [h1, Load_eq, mapIndex_erase_self]
  · intro h
    rw [Load_eq] at h
    have h1 : mapIndex d.dirty k = (Ptr.nil, false) := by simpa using h
    have h2 : (mapIndex d.dirty k).2 = false := by rw [h1]
    rw [LoadAndDelete_eq]
    refine ⟨by simp [h1], ?_, ?_⟩
    · simp [erase_of_absent h2, internalMap.contents, mapEntries, contents_table]
    · intro k2
      simp [erase_of_absent h2, Load_eq, mapIndex_table]

/-- C4 (Delete clears): whatever the table holds, after `Store(k, v)` and then
`Delete(k)`, both of which return, `Load(k)` returns `(nil, false)`. -/
theorem delete_clears {T : Type} (d : internalMap T) (k : String) (v : T) :
    (d.Store k v).1 = Res.ret () ∧
    ((d.Store k v).2.Delete k).1 = Res.ret () ∧
    (((d.Store k v).2.Delete k).2.Load k).1 = Res.ret (Ptr.nil, false) := by
  refine ⟨by rw [Store_eq], by rw [Delete_eq], ?_⟩
  rw [Delete_eq, Load_eq]
  exact congrArg Res.ret (mapIndex_erase_self (d.Store k v).2.table k)

/-- C5 (idempotent delete): when `k` is absent, `Delete(k)` returns, the table
holds the same entries as before and every `Load` returns what it returned
before; and a second `Delete(k)` leaves the table that the first one left. -/
theorem delete_absent_noop {T : Type} (d : internalMap T) (k : String)
    (h : (d.Load k).1 = Res.ret (Ptr.nil, false)) :
    (d.Delete k).1 = Res.ret () ∧
    (d.Delete k).2.contents = d.contents ∧
    (∀ k2, ((d.Delete k).2.Load k2).1 = (d.Load k2).1) ∧
    ((d.Delete k).2.Delete k).2 = (d.Delete k).2 := by
  rw [Load_eq] at h
  have h1 : mapIndex d.dirty k = (Ptr.nil, false) := by simpa using h
  have h2 : (mapIndex d.dirty k).2 = false := by rw [h1]
  refine ⟨by rw [Delete_eq], ?_, ?_, ?_⟩
  · simp [Delete_eq, erase_of_absent h2, internalMap.contents, mapEntries, contents_table]
  · intro k2
    simp [Delete_eq, erase_of_absent h2, Load_eq, mapIndex_table]
  · simp [Delete_eq, internalMap.table, erase_erase]

/-! ## Facts about the loop of `Range` -/

theorem nodup_contents {T : Type} (s : internalMap T) : (keysOf s.contents).Nodup := by
  rcases s with ⟨_ | g⟩
  · simp [internalMap.contents, mapEntries, keysOf]
  · exact g.nodup

theorem present_iff_mem_keys {T : Type} (s : internalMap T) (k : String) :
    (∃ p, (s.Load k).1 = Res.ret (p, true)) ↔ k ∈ keysOf s.contents := by
  rw [Load_eq, mapIndex_eq_findKey]
  cases hf : findKey k s.contents with
  | none =>
    have := (findKey_eq_none_iff k s.contents).1 hf
    simp [this]
  | some q =>
    have h1 : ¬ k ∉ keysOf s.contents := fun h =>
      by rw [(findKey_eq_none_iff k s.contents).2 h] at hf; cases hf
    simp only [not_not] at h1
    simp [h1]

theorem load_of_mem_contents {T : Type} (s : internalMap T) {k : String} {p : Ptr T}
    (h : (k, p) ∈ s.contents) : (s.Load k).1 = Res.ret (p, true) := by
  rw [Load_eq, mapIndex_eq_findKey, findKey_eq_some_of_mem (nodup_contents s) h]

theorem rangeLoop_all_true {T σ : Type} (f : Callback T σ)
    (hf : ∀ c k v, (f c k v).1 = Res.ret true) (l : List (String × Ptr T)) (c : σ) :
    (rangeLoop f l c).res = Res.ret () ∧
    (rangeLoop f l c).calls.map (fun x => (x.key, x.value)) = l := by
  induction l generalizing c with
  | nil => simp [rangeLoop]
  | cons e rest ih =>
    obtain ⟨k, v⟩ := e
    rcases hfc : f c k v with ⟨r, c1⟩
    have hr : r = Res.ret true := by
      have := hf c k v
      rw [hfc] at this
      exact this
    subst hr
    simp [rangeLoop, hfc, ih c1]

theorem rangeLoop_stops {T σ : Type} (f : Callback T σ) (l : List (String × Ptr T)) (c : σ)
    (pre : List (Call T)) (x : Call T) (post : List (Call T))
    (h : (rangeLoop f l c).calls = pre ++ x :: post) (hx : x.result ≠ Res.ret true) :
    post = [] := by
  induction l generalizing c pre with
  | nil => simp [rangeLoop] at h
  | cons e rest ih =>
    obtain ⟨k, v⟩ := e
    rcases hfc : f c k v with ⟨r, c1⟩
    rcases r with b | msg
    · cases b
      · simp only [rangeLoop, hfc] at h
        cases pre with
        | nil => simp at h; exact h.2
        | cons y pre1 => simp at h
      · simp only [rangeLoop, hfc] at h
        cases pre with
        | nil =>
          simp at h
          exact absurd (by rw [← h.1]) hx
        | cons y pre1 =>
          simp at h
          exact ih c1 pre1 h.2
    · simp only [rangeLoop, hfc] at h
      cases pre with
      | nil => simp at h; exact h.2
      | cons y pre1 => simp at h

theorem rangeLoop_first_false {T σ : Type} (f : Callback T σ) (l : List (String × Ptr T))
    (c : σ) (hl : l ≠ []) (hf : ∀ k v, (f c k v).1 = Res.ret false) :
    (rangeLoop f l c).calls.length = 1 := by
  cases l with
  | nil => exact absurd rfl hl
  | cons e rest =>
    obtain ⟨k, v⟩ := e
    rcases hfc : f c k v with ⟨r, c1⟩
    have hr : r = Res.ret false := by
      have := hf k v
      rw [hfc] at this
      exact this
    subst hr
    simp [rangeLoop, hfc]

/-- C6 (Range completeness): on a table whose keys (pairwise distinct, and exactly
the keys for which `Load` reports a value) number `N`, with a callback that returns
true at every invocation, `Range` returns after exactly `N` invocations, never two
for the same key, one for each present key, each receiving the pointer that `Load`
returns for its key; the table holds the same entries afterwards. -/
theorem range_completeness {T σ : Type} (d : internalMap T) (ord : IterOrder T)
    (f : Callback T σ) (c : σ) (hf : ∀ c k v, (f c k v).1 = Res.ret true) :
    (d.Range ord f c).1.res = Res.ret () ∧
    (keysOf d.contents).Nodup ∧
    (∀ k, k ∈ keysOf d.contents ↔ ∃ p, (d.Load k).1 = Res.ret (p, true)) ∧
    (d.Range ord f c).1.calls.length = (keysOf d.contents).length ∧
    ((d.Range ord f c).1.calls.map Call.key).Nodup ∧
    (∀ k, k ∈ (d.Range ord f c).1.calls.map Call.key ↔
      ∃ p, (d.Load k).1 = Res.ret (p, true)) ∧
    (∀ x ∈ (d.Range ord f c).1.calls, (d.Load x.key).1 = Res.ret (x.value, true)) ∧
    (d.Range ord f c).2.contents = d.contents := by
  have hl := rangeLoop_all_true f hf (ord.pick d.contents) c
  have hp : (ord.pick d.contents).Perm d.contents := ord.perm _
  have hR : (d.Range ord f c).1 = rangeLoop f (ord.pick d.contents) c := by
    have := contents_init d
    simp only [internalMap.contents] at this
    simp [internalMap.Range, internalMap.contents, this]
  have hk : (rangeLoop f (ord.pick d.contents) c).calls.map Call.key =
      keysOf (ord.pick d.contents) := by
    have := congrArg (List.map Prod.fst) hl.2
    simpa [keysOf, List.map_map, Function.comp_def] using this
  have hpk : (keysOf (ord.pick d.contents)).Perm (keysOf d.contents) := hp.map Prod.fst
  rw [hR]
  refine ⟨hl.1, nodup_contents d, fun k => (present_iff_mem_keys d k).symm, ?_, ?_, ?_, ?_, ?_⟩
  · have := congrArg List.length hk
    rw [List.length_map] at this
    rw [this, hpk.length_eq]
  · rw [hk]
    exact hpk.nodup_iff.2 (nodup_contents d)
  · intro k
    rw [hk, hpk.mem_iff, present_iff_mem_keys]
  · intro x hx
    have h1 : (x.key, x.value) ∈ ord.pick d.contents := by
      rw [← hl.2]
      exact List.mem_map_of_mem (fun x => (x.key, x.value)) hx
    exact load_of_mem_contents d (hp.mem_iff.1 h1)
  · simpa [internalMap.Range] using contents_init d

/-- C7 (Range early stop): in the sequence of invocations a `Range` makes, an
invocation that did not return true (it returned false, or panicked) is the last
one; and on a table that is not empty, with a callback that returns false when it
is first invoked, `Range` makes exactly one invocation. -/
theorem range_early_stop {T σ : Type} (d : internalMap T) (ord : IterOrder T)
    (f : Callback T σ) (c : σ) :
    (∀ pre x post, (d.Range ord f c).1.calls = pre ++ x :: post →
      x.result ≠ Res.ret true → post = []) ∧
    (d.contents ≠ [] → (∀ k v, (f c k v).1 = Res.ret false) →
      (d.Range ord f c).1.calls.length = 1) := by
  have hR : (d.Range ord f c).1 = rangeLoop f (ord.pick d.contents) c := by
    have := contents_init d
    simp only [internalMap.contents] at this
    simp [internalMap.Range, internalMap.contents, this]
  rw [hR]
  refine ⟨fun pre x post h hx => rangeLoop_stops f _ c pre x post h hx, ?_⟩
  intro hne hf
  refine rangeLoop_first_false f _ c ?_ hf
  intro h0
  apply hne
  have := (ord.perm d.contents).length_eq
  rw [h0] at this
  exact List.length_eq_zero.1 this.symm

/-- Method `Load` never changes what the table holds, and leaves a table whose mapping
exists exactly as it was. -/
theorem load_keeps_contents {T : Type} (d : internalMap T) (k : String) :
    (d.Load k).2.contents = d.contents ∧
    (∀ k2, ((d.Load k).2.Load k2).1 = (d.Load k2).1) ∧
    (∀ g, d.dirty = some g → (d.Load k).2 = d) := by
  refine ⟨by rw [Load_eq]; exact contents_init d, ?_, ?_⟩
  · intro k2
    simp [Load_eq, Load_after_init, mapIndex_init]
  · intro g hg
    rcases d with ⟨_ | g1⟩
    · cases hg
    · rfl

/-- C8 (Load never mutates), at the zero value: the code assigns the field `dirty`
during `Load`.  On the zero-value `internalMap` the state after `Load(k)` differs
from the state before it; and `RWMap.Load` on the zero-value `RWMap`, which takes
the lock with `RLock` (one reader, no writer) and returns with the lock free, has
replaced the nil mapping of the table it guards by an empty one. -/
theorem load_writes_dirty_of_zero_value {T : Type} (k : String) :
    ((internalMap.zero : internalMap T).Load k).2 ≠ internalMap.zero ∧
    ((internalMap.zero : internalMap T).Load k).2.dirty = some GoMap.empty ∧
    RWMutex.free.RLock = some ⟨1, false⟩ ∧
    ∃ s1, (RWMap.zero : RWMap T).Load k = some (Res.ret (Ptr.nil, false), s1) ∧
      s1.mu = RWMutex.free ∧
      s1.dirty.dirty = some GoMap.empty ∧
      (RWMap.zero : RWMap T).dirty.dirty = none := by
  refine ⟨?_, rfl, rfl, ⟨RWMutex.free, ⟨some GoMap.empty⟩⟩, rfl, rfl, rfl, rfl⟩
  intro h
  have := congrArg internalMap.dirty h
  simp [internalMap.Load, internalMap.zero, internalMap.init] at this

/-- C9 (zero value is usable): on the zero value of `internalMap`, of `SyncMap` and
of `RWMap`, every method returns: `Load` and `LoadAndDelete` return `(nil, false)`,
`Delete` returns and the table holds no entry, `Range` returns without invoking the
callback, and after `Store(k, v)` or `LoadOrStore(k, v)` (which returns a pointer to
`v` and `loaded = false`) a `Load(k)` returns a pointer to `v` and `true`. -/
theorem zero_value_usable {T σ : Type} (k : String) (v : T) (ord : IterOrder T)
    (f : Callback T σ) (c : σ) :
    (((internalMap.zero : internalMap T).Load k).1 = Res.ret (Ptr.nil, false) ∧
      ((internalMap.zero : internalMap T).LoadAndDelete k).1 = Res.ret (Ptr.nil, false) ∧
      ((internalMap.zero : internalMap T).Delete k).1 = Res.ret () ∧
      ((internalMap.zero : internalMap T).Delete k).2.contents = [] ∧
      ((internalMap.zero : internalMap T).Range ord f c).1.res = Res.ret () ∧
      ((internalMap.zero : internalMap T).Range ord f c).1.calls = [] ∧
      ((internalMap.zero : internalMap T).Store k v).1 = Res.ret () ∧
      (((internalMap.zero : internalMap T).Store k v).2.Load k).1 =
        Res.ret (Ptr.ref v, true) ∧
      ((internalMap.zero : internalMap T).LoadOrStore k v).1 =
        Res.ret (Ptr.ref v, false) ∧
      (((internalMap.zero : internalMap T).LoadOrStore k v).2.Load k).1 =
        Res.ret (Ptr.ref v, true)) ∧
    ((∃ s1, (SyncMap.zero : SyncMap T).Load k = some (Res.ret (Ptr.nil, false), s1)) ∧
      (∃ s1, (SyncMap.zero : SyncMap T).LoadAndDelete k =
        some (Res.ret (Ptr.nil, false), s1)) ∧
      (∃ s1, (SyncMap.zero : SyncMap T).Delete k = some (Res.ret (), s1) ∧
        s1.dirty.contents = []) ∧
      (∃ out s1, (SyncMap.zero : SyncMap T).Range ord f c = some (out, s1) ∧
        out.res = Res.ret () ∧ out.calls = []) ∧
      (∃ s1 s2, (SyncMap.zero : SyncMap T).Store k v = some (Res.ret (), s1) ∧
        s1.Load k = some (Res.ret (Ptr.ref v, true), s2)) ∧
      (∃ s1 s2, (SyncMap.zero : SyncMap T).LoadOrStore k v =
          some (Res.ret (Ptr.ref v, false), s1) ∧
        s1.Load k = some (Res.ret (Ptr.ref v, true), s2))) ∧
    ((∃ s1, (RWMap.zero : RWMap T).Load k = some (Res.ret (Ptr.nil, false), s1)) ∧
      (∃ s1, (RWMap.zero : RWMap T).LoadAndDelete k =
        some (Res.ret (Ptr.nil, false), s1)) ∧
      (∃ s1, (RWMap.zero : RWMap T).Delete k = some (Res.ret (), s1) ∧
        s1.dirty.contents = []) ∧
      (∃ out s1, (RWMap.zero : RWMap T).Range ord f c = some (out, s1) ∧
        out.res = Res.ret () ∧ out.calls = []) ∧
      (∃ s1 s2, (RWMap.zero : RWMap T).Store k v = some (Res.ret (), s1) ∧
        s1.Load k = some (Res.ret (Ptr.ref v, true), s2)) ∧
      (∃ s1 s2, (RWMap.zero : RWMap T).LoadOrStore k v =
          some (Res.ret (Ptr.ref v, false), s1) ∧
        s1.Load k = some (Res.ret (Ptr.ref v, true), s2))) := by
  have hpick : ord.pick [] = [] := List.length_eq_zero.1 (ord.perm []).length_eq
  have hrange : ((internalMap.zero : internalMap T).Range ord f c).1.res = Res.ret () ∧
      ((internalMap.zero : internalMap T).Range ord f c).1.calls = [] := by
    simp [internalMap.Range, internalMap.zero, internalMap.init, mapEntries, GoMap.empty,
      hpick, rangeLoop]
  have hstore : (((internalMap.zero : internalMap T).Store k v).2.Load k).1 =
      Res.ret (Ptr.ref v, true) := by
    rw [Store_eq, Load_eq, mapIndex_insert_self]
  have hlos : ((internalMap.zero : internalMap T).LoadOrStore k v).1 =
        Res.ret (Ptr.ref v, false) ∧
      (((internalMap.zero : internalMap T).LoadOrStore k v).2.Load k).1 =
        Res.ret (Ptr.ref v, true) := by
    have h0 : mapIndex (internalMap.zero : internalMap T).dirty k = (Ptr.nil, false) := rfl
    rw [LoadOrStore_eq]
    simp [h0, Load_eq, mapIndex_insert_self]
  refine ⟨⟨rfl, rfl, rfl, rfl, hrange.1, hrange.2, rfl, hstore, hlos.1, hlos.2⟩, ?_, ?_⟩
  · refine ⟨⟨_, rfl⟩, ⟨_, rfl⟩, ⟨_, rfl, rfl⟩, ?_, ?_, ?_⟩
    · exact ⟨_, _, SyncMap.withLock_unlocked _ _, hrange.1, hrange.2⟩
    · refine ⟨⟨Mutex.unlocked, ((internalMap.zero : internalMap T).Store k v).2⟩,
        ⟨Mutex.unlocked, (((internalMap.zero : internalMap T).Store k v).2.Load k).2⟩,
        rfl, ?_⟩
      rw [SyncMap.Load, SyncMap.withLock_unlocked, hstore]
    · refine ⟨⟨Mutex.unlocked, ((internalMap.zero : internalMap T).LoadOrStore k v).2⟩,
        ⟨Mutex.unlocked, (((internalMap.zero : internalMap T).LoadOrStore k v).2.Load k).2⟩,
        ?_, ?_⟩
      · rw [SyncMap.LoadOrStore, SyncMap.zero, SyncMap.withLock_unlocked, hlos.1]
      · rw [SyncMap.Load, SyncMap.withLock_unlocked, hlos.2]
  · refine ⟨⟨_, rfl⟩, ⟨_, rfl⟩, ⟨_, rfl, rfl⟩, ?_, ?_, ?_⟩
    · exact ⟨_, _, RWMap.withRLock_free _ _, hrange.1, hrange.2⟩
    · refine ⟨⟨RWMutex.free, ((internalMap.zero : internalMap T).Store k v).2⟩,
        ⟨RWMutex.free, (((internalMap.zero : internalMap T).Store k v).2.Load k).2⟩,
        rfl, ?_⟩
      rw [RWMap.Load, RWMap.withRLock_free, hstore]
    · refine ⟨⟨RWMutex.free, ((internalMap.zero : internalMap T).LoadOrStore k v).2⟩,
        ⟨RWMutex.free, (((internalMap.zero : internalMap T).LoadOrStore k v).2.Load k).2⟩,
        ?_, ?_⟩
      · rw [RWMap.LoadOrStore, RWMap.zero, RWMap.withLock_free, hlos.1]
      · rw [RWMap.Load, RWMap.withRLock_free, hlos.2]

/-! ## The three tables side by side -/

theorem SyncMap.apply_unlocked {T σ : Type} (d : internalMap T) (op : Op T σ) :
    (SyncMap.mk Mutex.unlocked d).apply op =
      some ((d.apply op).1, ⟨Mutex.unlocked, (d.apply op).2⟩) := by
  cases op <;> rfl

theorem RWMap.apply_free {T σ : Type} (d : internalMap T) (op : Op T σ) :
    (RWMap.mk RWMutex.free d).apply op =
      some ((d.apply op).1, ⟨RWMutex.free, (d.apply op).2⟩) := by
  cases op <;> rfl

theorem SyncMap.run_unlocked {T σ : Type} (d : internalMap T) (ops : List (Op T σ)) :
    (SyncMap.mk Mutex.unlocked d).run ops =
      some ((d.run ops).1, ⟨Mutex.unlocked, (d.run ops).2⟩) := by
  induction ops generalizing d with
  | nil => rfl
  | cons op ops ih =>
    simp only [SyncMap.run, SyncMap.apply_unlocked, ih, internalMap.run]

theorem RWMap.run_free {T σ : Type} (d : internalMap T) (ops : List (Op T σ)) :
    (RWMap.mk RWMutex.free d).run ops =
      some ((d.run ops).1, ⟨RWMutex.free, (d.run ops).2⟩) := by
  induction ops generalizing d with
  | nil => rfl
  | cons op ops ih =>
    simp only [RWMap.run, RWMap.apply_free, ih, internalMap.run]

theorem internalMap.run_length {T σ : Type} (d : internalMap T) (ops : List (Op T σ)) :
    (d.run ops).1.length = ops.length := by
  induction ops generalizing d with
  | nil => rfl
  | cons op ops ih => simp [internalMap.run, ih]

/-- C10 (identical contract), for callbacks that do not call the container: for
every finite sequence of calls made one after the other from the zero value, each
`Range` with the order the runtime picks for it and with a callback that calls no
method of the container it iterates over, the `SyncMap` and the `RWMap` return from
every call, the results they give are, call by call, the results the `internalMap`
gives, and they end with their lock free around the table the `internalMap` ends
in. -/
theorem identical_contract {T σ : Type} (ops : List (Op T σ)) :
    ((internalMap.zero : internalMap T).run ops).1.length = ops.length ∧
    (SyncMap.zero : SyncMap T).run ops =
      some (((internalMap.zero : internalMap T).run ops).1,
        ⟨Mutex.unlocked, ((internalMap.zero : internalMap T).run ops).2⟩) ∧
    (RWMap.zero : RWMap T).run ops =
      some (((internalMap.zero : internalMap T).run ops).1,
        ⟨RWMutex.free, ((internalMap.zero : internalMap T).run ops).2⟩) :=
  ⟨internalMap.run_length _ ops, SyncMap.run_unlocked _ ops, RWMap.run_free _ ops⟩

/-! ## The properties at concrete tables -/

/-- C2 at concrete tables: `"a"` absent from the zero value, and present with `1`
in `tableA`. -/
theorem loadOrStore_semantics_witness :
    ((internalMap.zero : internalMap Nat).Load "a").1 = Res.ret (Ptr.nil, false) ∧
    ((internalMap.zero : internalMap Nat).LoadOrStore "a" 1).1 = Res.ret (Ptr.ref 1, false) ∧
    (tableA.Load "a").1 = Res.ret (Ptr.ref 1, true) ∧
    tableA.LoadOrStore "a" 2 = (Res.ret (Ptr.ref 1, true), tableA) :=
  ⟨by decide,
    ((loadOrStore_semantics (internalMap.zero : internalMap Nat) "a" 1 2).1 (by decide)).1,
    by decide,
    ((loadOrStore_semantics tableA "a" 1 2).2 (by decide)).1⟩

/-- C3 at concrete tables: `"a"` present in `tableA`, `"b"` absent from it. -/
theorem loadAndDelete_semantics_witness :
    (tableA.Load "a").1 = Res.ret (Ptr.ref 1, true) ∧
    ((tableA.LoadAndDelete "a").2.Load "a").1 = Res.ret (Ptr.nil, false) ∧
    (tableA.Load "b").1 = Res.ret (Ptr.nil, false) ∧
    (tableA.LoadAndDelete "b").2.contents = tableA.contents :=
  ⟨by decide,
    ((loadAndDelete_semantics tableA "a" (Ptr.ref 1)).1 (by decide)).2,
    by decide,
    ((loadAndDelete_semantics tableA "b" Ptr.nil).2 (by decide)).2.1⟩

/-- C5 at a concrete table: `"b"` is absent from `tableA`. -/
theorem delete_absent_noop_witness :
    (tableA.Load "b").1 = Res.ret (Ptr.nil, false) ∧
    (tableA.Delete "b").2.contents = tableA.contents :=
  ⟨by decide, (delete_absent_noop tableA "b" (by decide)).2.1⟩

/-- C6 at a concrete table: two keys, the runtime iterating backwards. -/
theorem range_completeness_witness :
    (∀ (c : Nat) (k : String) (v : Ptr Nat), (countAll c k v).1 = Res.ret true) ∧
    (tableAB.Range IterOrder.backwards countAll 0).1.calls.length =
      (keysOf tableAB.contents).length :=
  ⟨fun _ _ _ => rfl,
    (range_completeness tableAB IterOrder.backwards countAll 0 (fun _ _ _ => rfl)).2.2.2.1⟩

/-- C7 at a concrete table: two keys, a callback that returns false at once. -/
theorem range_early_stop_witness :
    tableAB.contents ≠ [] ∧
    (∀ (k : String) (v : Ptr Nat), (countFirst 0 k v).1 = Res.ret false) ∧
    (tableAB.Range IterOrder.stored countFirst 0).1.calls.length = 1 :=
  ⟨by decide, fun _ _ => rfl,
    (range_early_stop tableAB IterOrder.stored countFirst 0).2 (by decide) (fun _ _ => rfl)⟩

/-! ## Other keys, and `LoadAndDelete` against `Load` and `Delete` -/

theorem mapIndex_insert_ne {T : Type} (g : GoMap T) {k k2 : String} (h : k2 ≠ k)
    (p : Ptr T) : mapIndex (some (g.insert k p)) k2 = mapIndex (some g) k2 := by
  have h1 : ¬ k = k2 := fun e => h e.symm
  simp [mapIndex, GoMap.insert, findKey, h1, findKey_eraseKey_ne h]

theorem mapIndex_of_absent {T : Type} {m : Option (GoMap T)} {k : String}
    (h : (mapIndex m k).2 = false) : mapIndex m k = (Ptr.nil, false) := by
  rcases m with _ | g
  · rfl
  · simp only [mapIndex] at h ⊢
    cases hf : findKey k g.entries with
    | none => rfl
    | some p => simp [hf] at h

/-- C16 (other keys are untouched): for two distinct keys `k` and `k2`, after each
of `Store(k, v)`, `Delete(k)`, `LoadAndDelete(k)` and `LoadOrStore(k, v)` a
`Load(k2)` returns exactly what it returned before. -/
theorem other_keys_untouched {T : Type} (d : internalMap T) (k k2 : String) (v : T)
    (h : k ≠ k2) :
    ((d.Store k v).2.Load k2).1 = (d.Load k2).1 ∧
    ((d.Delete k).2.Load k2).1 = (d.Load k2).1 ∧
    ((d.LoadAndDelete k).2.Load k2).1 = (d.Load k2).1 ∧
    ((d.LoadOrStore k v).2.Load k2).1 = (d.Load k2).1 := by
  have h2 : k2 ≠ k := fun e => h e.symm
  have hi : mapIndex (some (d.table.insert k (Ptr.ref v))) k2 = mapIndex d.dirty k2 := by
    rw [mapIndex_insert_ne _ h2, mapIndex_table]
  have he : mapIndex (some (d.table.erase k)) k2 = mapIndex d.dirty k2 := by
    rw [mapIndex_erase_ne _ h2, mapIndex_table]
  refine ⟨?_, ?_, ?_, ?_⟩
  · rw [Store_eq, Load_eq, Load_eq, hi]
  · rw [Delete_eq, Load_eq, Load_eq, he]
  · rw [LoadAndDelete_eq, Load_eq, Load_eq, he]
  · rw [LoadOrStore_eq]
    cases hk : (mapIndex d.dirty k).2
    · simp only [Bool.false_eq_true, if_false]
      rw [Load_eq, Load_eq, hi]
    · simp only [if_true]
      rw [Load_after_init, Load_eq]

/-- C17 (LoadAndDelete is Load followed by Delete): on every table and key,
`LoadAndDelete(k)` returns the pair `Load(k)` returns and leaves the table
`Delete(k)` leaves, which is also the table left by `Load(k)` followed by
`Delete(k)`. -/
theorem loadAndDelete_eq_load_delete {T : Type} (d : internalMap T) (k : String) :
    (d.LoadAndDelete k).1 = (d.Load k).1 ∧
    (d.LoadAndDelete k).2 = (d.Delete k).2 ∧
    (d.LoadAndDelete k).2 = ((d.Load k).2.Delete k).2 := by
  refine ⟨?_, ?_, ?_⟩
  · rw [LoadAndDelete_eq, Load_eq]
    cases hk : (mapIndex d.dirty k).2
    · simp [mapIndex_of_absent hk]
    · simp
  · rw [LoadAndDelete_eq, Delete_eq]
  · rw [LoadAndDelete_eq, Load_eq, Delete_eq]
    rcases d with ⟨_ | g⟩ <;> rfl

/-- C16 at a concrete table: `"a"` and `"b"` in `tableAB`. -/
theorem other_keys_untouched_witness :
    "a" ≠ "b" ∧ ((tableAB.Delete "a").2.Load "b").1 = (tableAB.Load "b").1 :=
  ⟨by decide, (other_keys_untouched tableAB "a" "b" 7 (by decide)).2.1⟩

/-! ## Every stored pointer is non-nil -/

theorem mem_of_mem_eraseKey {T : Type} {k : String} {l : List (String × Ptr T)}
    {e : String × Ptr T} (h : e ∈ eraseKey k l) : e ∈ l :=
  (List.mem_filter.1 h).1

theorem contents_Store {T : Type} (d : internalMap T) (k : String) (v : T) :
    (d.Store k v).2.contents = (k, Ptr.ref v) :: eraseKey k d.contents := by
  rw [Store_eq, ← contents_table d]
  rfl

theorem contents_Delete {T : Type} (d : internalMap T) (k : String) :
    (d.Delete k).2.contents = eraseKey k d.contents := by
  rw [Delete_eq, ← contents_table d]
  rfl

theorem contents_LoadAndDelete {T : Type} (d : internalMap T) (k : String) :
    (d.LoadAndDelete k).2.contents = eraseKey k d.contents := by
  rw [LoadAndDelete_eq, ← contents_table d]
  rfl

theorem contents_LoadOrStore {T : Type} (d : internalMap T) (k : String) (v : T) :
    (d.LoadOrStore k v).2.contents = d.contents ∨
    (d.LoadOrStore k v).2.contents = (k, Ptr.ref v) :: eraseKey k d.contents := by
  rw [LoadOrStore_eq]
  cases hk : (mapIndex d.dirty k).2
  · right
    simp only [Bool.false_eq_true, if_false]
    rw [← contents_table d]
    rfl
  · left
    simp only [if_true]
    exact contents_init d

theorem contents_Load {T : Type} (d : internalMap T) (k : String) :
    (d.Load k).2.contents = d.contents := by
  rw [Load_eq]
  exact contents_init d

theorem contents_Range {T σ : Type} (d : internalMap T) (ord : IterOrder T)
    (f : Callback T σ) (c : σ) : (d.Range ord f c).2.contents = d.contents := by
  simpa [internalMap.Range] using contents_init d

theorem apply_keeps_nonNil {T σ : Type} (d : internalMap T) (op : Op T σ)
    (h : ∀ e ∈ d.contents, e.2 ≠ Ptr.nil) :
    ∀ e ∈ (d.apply op).2.contents, e.2 ≠ Ptr.nil := by
  have herase : ∀ k, ∀ e ∈ eraseKey k d.contents, e.2 ≠ Ptr.nil :=
    fun k e he => h e (mem_of_mem_eraseKey he)
  have hcons : ∀ k (v : T), ∀ e ∈ (k, Ptr.ref v) :: eraseKey k d.contents, e.2 ≠ Ptr.nil := by
    intro k v e he
    rcases List.mem_cons.1 he with h1 | h1
    · rw [h1]
      exact fun hn => by cases hn
    · exact herase k e h1
  cases op with
  | load k => simpa [internalMap.apply, contents_Load] using h
  | store k v => simpa [internalMap.apply, contents_Store] using hcons k v
  | delete k => simpa [internalMap.apply, contents_Delete] using herase k
  | loadAndDelete k => simpa [internalMap.apply, contents_LoadAndDelete] using herase k
  | loadOrStore k v =>
    simp only [internalMap.apply]
    rcases contents_LoadOrStore d k v with h1 | h1
    · rw [h1]; exact h
    · rw [h1]; exact hcons k v
  | range ord f c => simpa [internalMap.apply, contents_Range] using h

theorem run_keeps_nonNil {T σ : Type} (d : internalMap T) (ops : List (Op T σ))
    (h : ∀ e ∈ d.contents, e.2 ≠ Ptr.nil) :
    ∀ e ∈ (d.run ops).2.contents, e.2 ≠ Ptr.nil := by
  induction ops generalizing d with
  | nil => exact h
  | cons op ops ih =>
    simp only [internalMap.run]
    exact ih _ (apply_keeps_nonNil d op h)

theorem mapIndex_of_nonNil {T : Type} (d : internalMap T) (k : String)
    (h : ∀ e ∈ d.contents, e.2 ≠ Ptr.nil) :
    mapIndex d.dirty k = (Ptr.nil, false) ∨ ∃ v, mapIndex d.dirty k = (Ptr.ref v, true) := by
  rw [mapIndex_eq_findKey]
  cases hf : findKey k d.contents with
  | none => exact Or.inl rfl
  | some p =>
    have hp := h _ (mem_of_findKey_eq_some hf)
    cases p with
    | nil => exact absurd rfl hp
    | ref v => exact Or.inr ⟨v, rfl⟩

theorem rangeLoop_calls_sub {T σ : Type} (f : Callback T σ) (l : List (String × Ptr T))
    (c : σ) : ∀ x ∈ (rangeLoop f l c).calls, (x.key, x.value) ∈ l := by
  induction l generalizing c with
  | nil => simp [rangeLoop]
  | cons e rest ih =>
    obtain ⟨k, v⟩ := e
    intro x hx
    rcases hfc : f c k v with ⟨r, c1⟩
    rcases r with b | msg
    · cases b
      · simp only [rangeLoop, hfc, List.mem_singleton] at hx
        simp [hx]
      · simp only [rangeLoop, hfc, List.mem_cons] at hx
        rcases hx with h1 | h1
        · simp [h1]
        · exact List.mem_cons_of_mem _ (ih c1 x h1)
    · simp only [rangeLoop, hfc, List.mem_singleton] at hx
      simp [hx]

/-- C15 (nil exactly when not found): in the table reached from the zero value by
any sequence of calls, which is also the table the `SyncMap` and the `RWMap` hold
after the same calls, every stored pointer is non-nil; so `Load(k)` and
`LoadAndDelete(k)` return either `(nil, false)` or a non-nil pointer with `true`,
and every pointer handed to a `Range` callback is non-nil. -/
theorem nil_iff_not_found {T σ : Type} (ops : List (Op T σ)) (k : String) :
    (∃ rs, (SyncMap.zero : SyncMap T).run ops =
      some (rs, ⟨Mutex.unlocked, ((internalMap.zero : internalMap T).run ops).2⟩)) ∧
    (∃ rs, (RWMap.zero : RWMap T).run ops =
      some (rs, ⟨RWMutex.free, ((internalMap.zero : internalMap T).run ops).2⟩)) ∧
    (∀ e ∈ ((internalMap.zero : internalMap T).run ops).2.contents, e.2 ≠ Ptr.nil) ∧
    ((((internalMap.zero : internalMap T).run ops).2.Load k).1 = Res.ret (Ptr.nil, false) ∨
      ∃ v, (((internalMap.zero : internalMap T).run ops).2.Load k).1 =
        Res.ret (Ptr.ref v, true)) ∧
    ((((internalMap.zero : internalMap T).run ops).2.LoadAndDelete k).1 =
        Res.ret (Ptr.nil, false) ∨
      ∃ v, (((internalMap.zero : internalMap T).run ops).2.LoadAndDelete k).1 =
        Res.ret (Ptr.ref v, true)) ∧
    (∀ (τ : Type) (ord : IterOrder T) (f : Callback T τ) (c : τ),
      ∀ x ∈ (((internalMap.zero : internalMap T).run ops).2.Range ord f c).1.calls,
        x.value ≠ Ptr.nil) := by
  have hinv : ∀ e ∈ ((internalMap.zero : internalMap T).run ops).2.contents,
      e.2 ≠ Ptr.nil :=
    run_keeps_nonNil internalMap.zero ops (by simp [internalMap.zero, internalMap.contents, mapEntries])
  have hidx := mapIndex_of_nonNil _ k hinv
  refine ⟨⟨_, SyncMap.run_unlocked _ ops⟩, ⟨_, RWMap.run_free _ ops⟩, hinv, ?_, ?_, ?_⟩
  · rw [Load_eq]
    rcases hidx with h1 | ⟨v, h1⟩
    · exact Or.inl (by rw [h1])
    · exact Or.inr ⟨v, by rw [h1]⟩
  · rw [LoadAndDelete_eq]
    rcases hidx with h1 | ⟨v, h1⟩
    · exact Or.inl (by simp [h1])
    · exact Or.inr ⟨v, by simp [h1]⟩
  · intro τ ord f c x hx
    have h1 : (x.key, x.value) ∈
        ord.pick (((internalMap.zero : internalMap T).run ops).2.contents) := by
      have := contents_init ((internalMap.zero : internalMap T).run ops).2
      simp only [internalMap.contents] at this
      simp only [internalMap.Range, this] at hx
      exact rangeLoop_calls_sub f _ c x hx
    exact hinv _ ((ord.perm _).mem_iff.1 h1)

/-! ## The lock between calls -/

theorem rangeLoop_first_panic {T σ : Type} (f : Callback T σ) (l : List (String × Ptr T))
    (c : σ) (msg : String) (hl : l ≠ []) (hf : ∀ k v, (f c k v).1 = Res.panic msg) :
    (rangeLoop f l c).res = Res.panic msg := by
  cases l with
  | nil => exact absurd rfl hl
  | cons e rest =>
    obtain ⟨k, v⟩ := e
    rcases hfc : f c k v with ⟨r, c1⟩
    have hr : r = Res.panic msg := by
      have := hf k v
      rw [hfc] at this
      exact this
    subst hr
    simp [rangeLoop, hfc]

/-- C13 (lock always released): every call on a `SyncMap` or an `RWMap` entered
with the lock free returns with the lock free, and so does every sequence of
calls; for `Range` this holds for every callback, whether it returns true
throughout, stops the iteration by returning false, or panics, and when the
callback panics at its first invocation on a table that is not empty the `Range`
ends with that panic and with the lock free; and whenever a `Range` whose
callback reaches the container returns, the lock is free. -/
theorem lock_always_released {T σ : Type} (d : internalMap T) :
    (∀ op : Op T σ, ∃ r d1,
      (SyncMap.mk Mutex.unlocked d).apply op = some (r, ⟨Mutex.unlocked, d1⟩)) ∧
    (∀ op : Op T σ, ∃ r d1,
      (RWMap.mk RWMutex.free d).apply op = some (r, ⟨RWMutex.free, d1⟩)) ∧
    (∀ ops : List (Op T σ), ∃ rs d1,
      (SyncMap.mk Mutex.unlocked d).run ops = some (rs, ⟨Mutex.unlocked, d1⟩)) ∧
    (∀ ops : List (Op T σ), ∃ rs d1,
      (RWMap.mk RWMutex.free d).run ops = some (rs, ⟨RWMutex.free, d1⟩)) ∧
    (∀ (ord : IterOrder T) (f : Callback T σ) (c : σ),
      (SyncMap.mk Mutex.unlocked d).Range ord f c =
        some ((d.Range ord f c).1, ⟨Mutex.unlocked, (d.Range ord f c).2⟩) ∧
      (RWMap.mk RWMutex.free d).Range ord f c =
        some ((d.Range ord f c).1, ⟨RWMutex.free, (d.Range ord f c).2⟩)) ∧
    (∀ (ord : IterOrder T) (f : Callback T σ) (c : σ) (msg : String),
      d.contents ≠ [] → (∀ k v, (f c k v).1 = Res.panic msg) →
      (d.Range ord f c).1.res = Res.panic msg) ∧
    (∀ (ord : IterOrder T) (f : ReCallback T σ (SyncMap T)) (c : σ) out s,
      (SyncMap.mk Mutex.unlocked d).RangeRe ord f c = some (out, s) →
      s.mu = Mutex.unlocked) ∧
    (∀ (ord : IterOrder T) (f : ReCallback T σ (RWMap T)) (c : σ) out s,
      (RWMap.mk RWMutex.free d).RangeRe ord f c = some (out, s) →
      s.mu = RWMutex.free) := by
  refine ⟨fun op => ⟨_, _, SyncMap.apply_unlocked d op⟩,
    fun op => ⟨_, _, RWMap.apply_free d op⟩,
    fun ops => ⟨_, _, SyncMap.run_unlocked d ops⟩,
    fun ops => ⟨_, _, RWMap.run_free d ops⟩,
    fun ord f c => ⟨SyncMap.withLock_unlocked d _, RWMap.withRLock_free d _⟩, ?_, ?_, ?_⟩
  · intro ord f c msg hne hf
    have hR : (d.Range ord f c).1 = rangeLoop f (ord.pick d.contents) c := by
      have := contents_init d
      simp only [internalMap.contents] at this
      simp [internalMap.Range, internalMap.contents, this]
    rw [hR]
    refine rangeLoop_first_panic f _ c msg ?_ hf
    intro h0
    apply hne
    have := (ord.perm d.contents).length_eq
    rw [h0] at this
    exact List.length_eq_zero.1 this.symm
  · intro ord f c out s h
    simp only [SyncMap.RangeRe, Mutex.Lock] at h
    cases hr : d.RangeRe ord (fun c1 k v e => f c1 k v ⟨Mutex.locked, e⟩) c with
    | none => simp [hr] at h
    | some r =>
      simp only [hr, Mutex.Unlock, Option.some.injEq, Prod.mk.injEq] at h
      rw [← h.2]
  · intro ord f c out s h
    simp only [RWMap.RangeRe, RWMutex.RLock, RWMutex.free, Bool.false_eq_true, if_false,
      Nat.zero_add] at h
    cases hr : d.RangeRe ord (fun c1 k v e => f c1 k v ⟨⟨1, false⟩, e⟩) c with
    | none => simp [hr] at h
    | some r =>
      simp only [hr, RWMutex.RUnlock, Option.some.injEq, Prod.mk.injEq] at h
      simp at h
      rw [← h.2]
      rfl

/-- C13 at a concrete table: the callback panics on `tableAB`. -/
theorem lock_always_released_witness :
    tableAB.contents ≠ [] ∧
    (∀ (k : String) (v : Ptr Nat), (panicAtOnce 0 k v).1 = Res.panic "boom") ∧
    (tableAB.Range IterOrder.stored panicAtOnce 0).1.res = Res.panic "boom" ∧
    (SyncMap.mk Mutex.unlocked tableAB).Range IterOrder.stored panicAtOnce 0 =
      some ((tableAB.Range IterOrder.stored panicAtOnce 0).1,
        ⟨Mutex.unlocked, (tableAB.Range IterOrder.stored panicAtOnce 0).2⟩) :=
  ⟨by decide, fun _ _ => rfl,
    (lock_always_released tableAB).2.2.2.2.2.1 IterOrder.stored panicAtOnce 0 "boom"
      (by decide) (fun _ _ => rfl),
    ((lock_always_released tableAB).2.2.2.2.1 IterOrder.stored panicAtOnce 0).1⟩

/-- C15 at a concrete table: the entry left by one `Store`. -/
theorem nil_iff_not_found_witness :
    (("a", Ptr.ref 1) : String × Ptr Nat) ∈
      ((internalMap.zero : internalMap Nat).run [(Op.store "a" 1 : Op Nat Unit)]).2.contents ∧
    (Ptr.ref 1 : Ptr Nat) ≠ Ptr.nil :=
  ⟨by decide,
    (nil_iff_not_found [(Op.store "a" 1 : Op Nat Unit)] "a").2.2.1 ("a", Ptr.ref 1) (by decide)⟩

theorem run_cons_fst {T σ : Type} (d : internalMap T) (op : Op T σ) (ops : List (Op T σ)) :
    (d.run (op :: ops)).1 = (d.apply op).1 :: ((d.apply op).2.run ops).1 := rfl

theorem run_cons_snd {T σ : Type} (d : internalMap T) (op : Op T σ) (ops : List (Op T σ)) :
    (d.run (op :: ops)).2 = ((d.apply op).2.run ops).2 := rfl

theorem run_append_snd {T σ : Type} (d : internalMap T) (ops1 ops2 : List (Op T σ)) :
    (d.run (ops1 ++ ops2)).2 = ((d.run ops1).2.run ops2).2 := by
  induction ops1 generalizing d with
  | nil => rfl
  | cons op ops ih => simp only [List.cons_append, run_cons_snd, ih]

theorem keyOp_view_ne {T : Type} (d : internalMap T) (op : KeyOp T) {k : String}
    (h : k ≠ op.key) : mapIndex (d.apply op.toOp).2.dirty k = mapIndex d.dirty k := by
  cases op with
  | load k1 => simp [KeyOp.toOp, internalMap.apply, Load_eq, mapIndex_init]
  | store k1 v =>
    have h1 : k ≠ k1 := h
    simp only [KeyOp.toOp, internalMap.apply, Store_eq]
    rw [mapIndex_insert_ne _ h1, mapIndex_table]
  | delete k1 =>
    have h1 : k ≠ k1 := h
    simp only [KeyOp.toOp, internalMap.apply, Delete_eq]
    rw [mapIndex_erase_ne _ h1, mapIndex_table]

theorem keyOp_congr {T : Type} (d d1 : internalMap T) (op : KeyOp T)
    (h : mapIndex d.dirty op.key = mapIndex d1.dirty op.key) :
    (d.apply op.toOp).1 = (d1.apply op.toOp).1 ∧
    mapIndex (d.apply op.toOp).2.dirty op.key = mapIndex (d1.apply op.toOp).2.dirty op.key := by
  cases op with
  | load k1 =>
    simp only [KeyOp.key] at h
    simp [KeyOp.toOp, KeyOp.key, internalMap.apply, Load_eq, mapIndex_init, h]
  | store k1 v =>
    simp [KeyOp.toOp, KeyOp.key, internalMap.apply, Store_eq, mapIndex_insert_self]
  | delete k1 =>
    simp [KeyOp.toOp, KeyOp.key, internalMap.apply, Delete_eq, mapIndex_erase_self]

theorem sched_sim {T : Type} (i : Nat) (K : String → Prop) (sched : List (Nat × KeyOp T))
    (hin : ∀ a ∈ sched, a.1 = i → K a.2.key)
    (hout : ∀ a ∈ sched, a.1 ≠ i → ¬ K a.2.key)
    (d d1 : internalMap T) (hR : ∀ k, K k → mapIndex d.dirty k = mapIndex d1.dirty k) :
    resultsOf i sched (d.run (callsOf sched)).1 =
      (d1.run ((threadOf i sched).map KeyOp.toOp)).1 ∧
    ∀ k, K k → mapIndex (d.run (callsOf sched)).2.dirty k =
      mapIndex (d1.run ((threadOf i sched).map KeyOp.toOp)).2.dirty k := by
  induction sched generalizing d d1 with
  | nil => exact ⟨rfl, hR⟩
  | cons a sched ih =>
    have hin1 : ∀ b ∈ sched, b.1 = i → K b.2.key :=
      fun b hb => hin b (List.mem_cons_of_mem _ hb)
    have hout1 : ∀ b ∈ sched, b.1 ≠ i → ¬ K b.2.key :=
      fun b hb => hout b (List.mem_cons_of_mem _ hb)
    by_cases ha : a.1 = i
    · have hKa : K a.2.key := hin a (List.mem_cons_self _ _) ha
      have hc := keyOp_congr d d1 a.2 (hR _ hKa)
      have hR1 : ∀ k, K k → mapIndex (d.apply a.2.toOp).2.dirty k =
          mapIndex (d1.apply a.2.toOp).2.dirty k := by
        intro k hk
        by_cases hka : k = a.2.key
        · rw [hka]; exact hc.2
        · rw [keyOp_view_ne d a.2 hka, keyOp_view_ne d1 a.2 hka]
          exact hR k hk
      have := ih hin1 hout1 _ _ hR1
      have hthr : threadOf i (a :: sched) = a.2 :: threadOf i sched := by
        simp [threadOf, ha]
      rw [hthr]
      simp only [callsOf, List.map_cons, run_cons_fst, run_cons_snd] at this ⊢
      refine ⟨?_, this.2⟩
      simp only [resultsOf, List.zip_cons_cons, ha, beq_self_eq_true, List.filter_cons_of_pos,
        List.map_cons] at this ⊢
      rw [this.1, hc.1]
    · have hKa : ¬ K a.2.key := hout a (List.mem_cons_self _ _) ha
      have hR1 : ∀ k, K k → mapIndex (d.apply a.2.toOp).2.dirty k = mapIndex d1.dirty k := by
        intro k hk
        have hka : k ≠ a.2.key := fun e => hKa (e ▸ hk)
        rw [keyOp_view_ne d a.2 hka]
        exact hR k hk
      have := ih hin1 hout1 _ _ hR1
      have hthr : threadOf i (a :: sched) = threadOf i sched := by
        simp [threadOf, ha]
      rw [hthr]
      simp only [callsOf, List.map_cons, run_cons_fst, run_cons_snd] at this ⊢
      refine ⟨?_, this.2⟩
      simp only [resultsOf, List.zip_cons_cons] at this ⊢
      rw [List.filter_cons_of_neg (by simpa using ha)]
      exact this.1

theorem lastWrite_append_singleton {T : Type} (k : String) (prog : List (KeyOp T))
    (op : KeyOp T) :
    lastWrite k (prog ++ [op]) = if op.writes k then some op else lastWrite k prog := by
  simp [lastWrite, List.find?_cons]
  cases op.writes k <;> simp

theorem load_after_program {T : Type} (d : internalMap T) (prog : List (KeyOp T))
    (k : String) :
    ((d.run (prog.map KeyOp.toOp)).2.Load k).1 =
      afterLastWrite (d.Load k).1 (lastWrite k prog) := by
  induction prog using List.reverseRecOn with
  | nil => rfl
  | append_singleton prog op ih =>
    rw [List.map_append, run_append_snd, lastWrite_append_singleton]
    simp only [List.map_cons, List.map_nil, run_cons_snd]
    have hrun : ∀ e : internalMap T, (e.run ([] : List (Op T Unit))).2 = e := fun _ => rfl
    rw [hrun]
    by_cases hk : k = op.key
    · cases op with
      | load k1 =>
        simp only [KeyOp.writes, Bool.false_eq_true, if_false]
        rw [← ih]
        simp [KeyOp.toOp, internalMap.apply, Load_eq, mapIndex_init]
      | store k1 v =>
        have hk1 : k1 = k := hk.symm
        subst hk1
        simp [KeyOp.writes, afterLastWrite, KeyOp.toOp, internalMap.apply, Store_eq, Load_eq,
          mapIndex_insert_self]
      | delete k1 =>
        have hk1 : k1 = k := hk.symm
        subst hk1
        simp [KeyOp.writes, afterLastWrite, KeyOp.toOp, internalMap.apply, Delete_eq, Load_eq,
          mapIndex_erase_self]
    · have hw : op.writes k = false := by
        cases op with
        | load k1 => rfl
        | store k1 v =>
          have : ¬ k1 = k := fun e => hk e.symm
          simp [KeyOp.writes, this]
        | delete k1 =>
          have : ¬ k1 = k := fun e => hk e.symm
          simp [KeyOp.writes, this]
      rw [hw]
      simp only [Bool.false_eq_true, if_false]
      rw [← ih, Load_eq, Load_eq, keyOp_view_ne _ op hk]

/-- C11 (disjoint keys): take any schedule of `Load`, `Store` and `Delete` calls,
each tagged with its thread, in which calls of different threads never share a
key; the schedule is any interleaving of the threads, its calls made one at a
time.  Run on a `SyncMap` or an `RWMap` with the lock free, every call returns,
and for every thread `i`: the results of its calls are the results it gets when
it runs alone on the same starting table, and for each of its keys the final
`Load` returns its last write (the value last stored, or absent after a `Delete`,
or what `Load` returned at the start when the thread only reads the key). -/
theorem disjoint_threads_serialised {T : Type} (d : internalMap T)
    (sched : List (Nat × KeyOp T))
    (hdisj : ∀ a ∈ sched, ∀ b ∈ sched, a.1 ≠ b.1 → a.2.key ≠ b.2.key) :
    (SyncMap.mk Mutex.unlocked d).run (callsOf sched) =
      some ((d.run (callsOf sched)).1, ⟨Mutex.unlocked, (d.run (callsOf sched)).2⟩) ∧
    (RWMap.mk RWMutex.free d).run (callsOf sched) =
      some ((d.run (callsOf sched)).1, ⟨RWMutex.free, (d.run (callsOf sched)).2⟩) ∧
    ∀ i : Nat,
      resultsOf i sched (d.run (callsOf sched)).1 =
        (d.run ((threadOf i sched).map KeyOp.toOp)).1 ∧
      ∀ k ∈ (threadOf i sched).map KeyOp.key,
        ((d.run (callsOf sched)).2.Load k).1 =
          ((d.run ((threadOf i sched).map KeyOp.toOp)).2.Load k).1 ∧
        ((d.run (callsOf sched)).2.Load k).1 =
          afterLastWrite (d.Load k).1 (lastWrite k (threadOf i sched)) := by
  refine ⟨SyncMap.run_unlocked d _, RWMap.run_free d _, ?_⟩
  intro i
  have hmem : ∀ k, k ∈ (threadOf i sched).map KeyOp.key ↔
      ∃ b ∈ sched, b.1 = i ∧ b.2.key = k := by
    intro k
    simp only [threadOf, List.mem_map, List.mem_filter, beq_iff_eq]
    constructor
    · rintro ⟨op, ⟨b, ⟨hb, hbi⟩, rfl⟩, rfl⟩
      exact ⟨b, hb, hbi, rfl⟩
    · rintro ⟨b, hb, hbi, rfl⟩
      exact ⟨b.2, ⟨b, ⟨hb, hbi⟩, rfl⟩, rfl⟩
  have hin : ∀ a ∈ sched, a.1 = i → a.2.key ∈ (threadOf i sched).map KeyOp.key :=
    fun a ha hai => (hmem _).2 ⟨a, ha, hai, rfl⟩
  have hout : ∀ a ∈ sched, a.1 ≠ i → ¬ a.2.key ∈ (threadOf i sched).map KeyOp.key := by
    intro a ha hai hk
    obtain ⟨b, hb, hbi, hbk⟩ := (hmem _).1 hk
    exact hdisj a ha b hb (fun e => hai (e.trans hbi)) hbk.symm
  have hsim := sched_sim i (fun k => k ∈ (threadOf i sched).map KeyOp.key) sched hin hout d d
    (fun _ _ => rfl)
  refine ⟨hsim.1, ?_⟩
  intro k hk
  have h1 : ((d.run (callsOf sched)).2.Load k).1 =
      ((d.run ((threadOf i sched).map KeyOp.toOp)).2.Load k).1 := by
    rw [Load_eq, Load_eq, hsim.2 k hk]
  exact ⟨h1, h1.trans (load_after_program d _ k)⟩

/-- C11 at a concrete schedule: the two threads of `twoThreads` on the zero value. -/
theorem disjoint_threads_serialised_witness :
    (∀ a ∈ twoThreads, ∀ b ∈ twoThreads, a.1 ≠ b.1 → a.2.key ≠ b.2.key) ∧
    resultsOf 1 twoThreads ((internalMap.zero : internalMap Nat).run (callsOf twoThreads)).1 =
      ((internalMap.zero : internalMap Nat).run ((threadOf 1 twoThreads).map KeyOp.toOp)).1 ∧
    (((internalMap.zero : internalMap Nat).run (callsOf twoThreads)).2.Load "b").1 =
      Res.ret (Ptr.ref 3, true) ∧
    (((internalMap.zero : internalMap Nat).run (callsOf twoThreads)).2.Load "a").1 =
      Res.ret (Ptr.nil, false) :=
  ⟨by decide,
    ((disjoint_threads_serialised internalMap.zero twoThreads (by decide)).2.2 1).1,
    (((disjoint_threads_serialised internalMap.zero twoThreads (by decide)).2.2 1).2 "b"
      (by decide)).2,
    (((disjoint_threads_serialised internalMap.zero twoThreads (by decide)).2.2 0).2 "a"
      (by decide)).2⟩

/-! ## Facts about callbacks that reach the container -/

theorem rangeLoopRe_lift {T σ C : Type} (f : Callback T σ) (view : C)
    (l : List (String × Ptr T)) (c : σ) :
    rangeLoopRe (fun c1 k v _ => some (f c1 k v)) view l c = some (rangeLoop f l c) := by
  induction l generalizing c with
  | nil => rfl
  | cons e rest ih =>
    obtain ⟨k, v⟩ := e
    rcases hfc : f c k v with ⟨r, c1⟩
    rcases r with b | msg
    · cases b
      · simp [rangeLoopRe, rangeLoop, hfc]
      · simp [rangeLoopRe, rangeLoop, hfc, ih c1]
    · simp [rangeLoopRe, rangeLoop, hfc]

/-- With a callback that does not look at the container, the methods `RangeRe` are
the methods `Range`. -/
theorem RangeRe_lift {T σ : Type} (ord : IterOrder T) (f : Callback T σ) (c : σ) :
    (∀ d : internalMap T,
      d.RangeRe ord (fun c1 k v _ => some (f c1 k v)) c = some (d.Range ord f c)) ∧
    (∀ s : SyncMap T,
      s.RangeRe ord (fun c1 k v _ => some (f c1 k v)) c = s.Range ord f c) ∧
    (∀ s : RWMap T,
      s.RangeRe ord (fun c1 k v _ => some (f c1 k v)) c = s.Range ord f c) := by
  have h1 : ∀ d : internalMap T,
      d.RangeRe ord (fun c1 k v _ => some (f c1 k v)) c = some (d.Range ord f c) := by
    intro d
    simp [internalMap.RangeRe, internalMap.Range, rangeLoopRe_lift]
  refine ⟨h1, ?_, ?_⟩
  · intro s
    simp only [SyncMap.RangeRe, SyncMap.Range, SyncMap.withLock, h1]
  · intro s
    simp only [RWMap.RangeRe, RWMap.Range, RWMap.withRLock, h1]

theorem rangeLoopRe_congr {T σ C : Type} (f g : ReCallback T σ C) (view : C)
    (h : ∀ c k v, f c k v view = g c k v view) (l : List (String × Ptr T)) (c : σ) :
    rangeLoopRe f view l c = rangeLoopRe g view l c := by
  induction l generalizing c with
  | nil => rfl
  | cons e rest ih =>
    obtain ⟨k, v⟩ := e
    simp only [rangeLoopRe, h c k v, ih]

theorem rangeLoopRe_blocked {T σ C : Type} (f : ReCallback T σ C) (view : C)
    (h : ∀ c k v, f c k v view = none) (l : List (String × Ptr T)) (c : σ) (hl : l ≠ []) :
    rangeLoopRe f view l c = none := by
  cases l with
  | nil => exact absurd rfl hl
  | cons e rest =>
    obtain ⟨k, v⟩ := e
    simp only [rangeLoopRe, h c k v]

theorem pick_ne_nil {T : Type} (ord : IterOrder T) {l : List (String × Ptr T)}
    (h : l ≠ []) : ord.pick l ≠ [] := by
  intro h0
  apply h
  have := (ord.perm l).length_eq
  rw [h0] at this
  exact List.length_eq_zero.1 this.symm

theorem SyncMap.withLock_locked {T X : Type} (s : SyncMap T) (h : s.mu = Mutex.locked)
    (body : internalMap T → X × internalMap T) : s.withLock body = none := by
  simp [SyncMap.withLock, h, Mutex.Lock]

theorem RWMap.withLock_read_held {T X : Type} (s : RWMap T) (h : 0 < s.mu.readers)
    (body : internalMap T → X × internalMap T) : s.withLock body = none := by
  simp [RWMap.withLock, RWMutex.Lock, h]

/-- While an `RWMap` is read-locked (some readers, no writer) and its mapping
exists, a `Load` called on it returns and leaves it exactly as it was. -/
theorem RWMap.Load_read_held {T : Type} (n : Nat) (g : GoMap T) (k : String) :
    (RWMap.mk ⟨n + 1, false⟩ ⟨some g⟩).Load k =
      some (Res.ret (mapIndex (some g) k), RWMap.mk ⟨n + 1, false⟩ ⟨some g⟩) := by
  simp [RWMap.Load, RWMap.withRLock, RWMutex.RLock, RWMutex.RUnlock, Load_eq, internalMap.init]

/-- C14 (Range holds the lock during the callback): started with the lock free,
`SyncMap.Range` invokes its callback only with the mutex held (what the callback
does otherwise has no bearing on the `Range`), every method called on a `SyncMap`
whose mutex is held never returns, and so a `Range` over a table that is not empty
never returns when its callback waits for such a call; `RWMap.Range` invokes its
callback only with one reader and no writer on the lock, `Store`, `Delete`,
`LoadAndDelete` and `LoadOrStore` called on an `RWMap` held by a reader never
return, and so a `Range` whose callback waits for one of them never returns. -/
theorem range_holds_lock {T σ : Type} (d : internalMap T) (ord : IterOrder T) (c : σ) :
    (∀ f g : ReCallback T σ (SyncMap T),
      (∀ c1 k v s, s.mu = Mutex.locked → f c1 k v s = g c1 k v s) →
      (SyncMap.mk Mutex.unlocked d).RangeRe ord f c =
        (SyncMap.mk Mutex.unlocked d).RangeRe ord g c) ∧
    (∀ s : SyncMap T, s.mu = Mutex.locked →
      ∀ (k : String) (v : T) (ord2 : IterOrder T) (f2 : Callback T σ) (c2 : σ),
        s.Load k = none ∧ s.Store k v = none ∧ s.Delete k = none ∧
        s.LoadAndDelete k = none ∧ s.LoadOrStore k v = none ∧
        s.Range ord2 f2 c2 = none) ∧
    (∀ f : ReCallback T σ (SyncMap T), d.contents ≠ [] →
      (∀ c1 k v s, s.mu = Mutex.locked → f c1 k v s = none) →
      (SyncMap.mk Mutex.unlocked d).RangeRe ord f c = none) ∧
    (∀ f g : ReCallback T σ (RWMap T),
      (∀ c1 k v s, s.mu = ⟨1, false⟩ → f c1 k v s = g c1 k v s) →
      (RWMap.mk RWMutex.free d).RangeRe ord f c =
        (RWMap.mk RWMutex.free d).RangeRe ord g c) ∧
    (∀ s : RWMap T, 0 < s.mu.readers → ∀ (k : String) (v : T),
      s.Store k v = none ∧ s.Delete k = none ∧
      s.LoadAndDelete k = none ∧ s.LoadOrStore k v = none) ∧
    (∀ f : ReCallback T σ (RWMap T), d.contents ≠ [] →
      (∀ c1 k v s, 0 < s.mu.readers → f c1 k v s = none) →
      (RWMap.mk RWMutex.free d).RangeRe ord f c = none) := by
  have hne : d.contents ≠ [] → ord.pick (mapEntries d.init.dirty) ≠ [] := by
    intro h
    have := contents_init d
    simp only [internalMap.contents] at this
    rw [this]
    exact pick_ne_nil ord h
  refine ⟨?_, ?_, ?_, ?_, ?_, ?_⟩
  · intro f g h
    have := rangeLoopRe_congr (fun c1 k v (e : internalMap T) => f c1 k v ⟨Mutex.locked, e⟩)
      (fun c1 k v e => g c1 k v ⟨Mutex.locked, e⟩) d.init
      (fun c1 k v => h c1 k v _ rfl) (ord.pick (mapEntries d.init.dirty)) c
    simp only [SyncMap.RangeRe, Mutex.Lock, internalMap.RangeRe, this]
  · intro s hs k v ord2 f2 c2
    exact ⟨SyncMap.withLock_locked s hs _, SyncMap.withLock_locked s hs _,
      SyncMap.withLock_locked s hs _, SyncMap.withLock_locked s hs _,
      SyncMap.withLock_locked s hs _, SyncMap.withLock_locked s hs _⟩
  · intro f hd h
    have := rangeLoopRe_blocked (fun c1 k v (e : internalMap T) => f c1 k v ⟨Mutex.locked, e⟩)
      d.init (fun c1 k v => h c1 k v _ rfl) (ord.pick (mapEntries d.init.dirty)) c (hne hd)
    simp only [SyncMap.RangeRe, Mutex.Lock, internalMap.RangeRe, this]
  · intro f g h
    have := rangeLoopRe_congr (fun c1 k v (e : internalMap T) => f c1 k v ⟨⟨1, false⟩, e⟩)
      (fun c1 k v e => g c1 k v ⟨⟨1, false⟩, e⟩) d.init
      (fun c1 k v => h c1 k v _ rfl) (ord.pick (mapEntries d.init.dirty)) c
    simp only [RWMap.RangeRe, RWMutex.RLock, RWMutex.free, internalMap.RangeRe]
    simp only [Bool.false_eq_true, if_false, Nat.zero_add]
    rw [this]
  · intro s hs k v
    exact ⟨RWMap.withLock_read_held s hs _, RWMap.withLock_read_held s hs _,
      RWMap.withLock_read_held s hs _, RWMap.withLock_read_held s hs _⟩
  · intro f hd h
    have := rangeLoopRe_blocked (fun c1 k v (e : internalMap T) => f c1 k v ⟨⟨1, false⟩, e⟩)
      d.init (fun c1 k v => h c1 k v _ Nat.one_pos) (ord.pick (mapEntries d.init.dirty)) c
      (hne hd)
    simp only [RWMap.RangeRe, RWMutex.RLock, RWMutex.free, internalMap.RangeRe]
    simp only [Bool.false_eq_true, if_false, Nat.zero_add]
    rw [this]

/-- C12 (the callback may call any method), on a table holding one entry: a
`SyncMap.Range` whose callback calls `Load` on the same `SyncMap` never returns,
and an `RWMap.Range` whose callback calls `Store` on the same `RWMap` never
returns; on the `RWMap` a callback that calls `Load` does return, and the `Range`
ends after its one invocation with the lock free. -/
theorem range_callback_calling_back :
    (SyncMap.mk Mutex.unlocked tableA).RangeRe IterOrder.stored callsLoad () = none ∧
    (RWMap.mk RWMutex.free tableA).RangeRe IterOrder.stored callsStore () = none ∧
    (RWMap.mk RWMutex.free tableA).RangeRe IterOrder.stored callsRLoad () =
      some (⟨Res.ret (), [⟨"a", Ptr.ref 1, Res.ret true⟩], ()⟩, ⟨RWMutex.free, tableA⟩) :=
  ⟨rfl, rfl, rfl⟩

/-- C14 at a concrete table: `callsLoad` around a `SyncMap` holding `tableA`. -/
theorem range_holds_lock_witness :
    tableA.contents ≠ [] ∧
    (∀ (c1 : Unit) (k : String) (v : Ptr Nat) (s : SyncMap Nat),
      s.mu = Mutex.locked → callsLoad c1 k v s = none) ∧
    (SyncMap.mk Mutex.unlocked tableA).RangeRe IterOrder.backwards callsLoad () = none :=
  ⟨by decide,
    fun _ k _ s h => by simp [callsLoad, SyncMap.withLock_locked s h, SyncMap.Load],
    (range_holds_lock tableA IterOrder.backwards ()).2.2.1 callsLoad (by decide)
      (fun _ k _ s h => by simp [callsLoad, SyncMap.withLock_locked s h, SyncMap.Load])⟩

/-- C10 as stated, at a callback that calls the container: from the zero value,
after `Store("a", 1)`, which returns on all three tables, the call
`Range(func(k, v) bool { m.Load(k); return true })` never returns on the `SyncMap`,
while on the `RWMap` and on the `internalMap` it returns after one invocation of the
callback. -/
theorem identical_contract_counterexample :
    (SyncMap.zero : SyncMap Nat).Store "a" 1 =
      some (Res.ret (), ⟨Mutex.unlocked, tableA⟩) ∧
    (RWMap.zero : RWMap Nat).Store "a" 1 =
      some (Res.ret (), ⟨RWMutex.free, tableA⟩) ∧
    (internalMap.zero : internalMap Nat).Store "a" 1 = (Res.ret (), tableA) ∧
    (SyncMap.mk Mutex.unlocked tableA).RangeRe IterOrder.stored callsLoad () = none ∧
    (RWMap.mk RWMutex.free tableA).RangeRe IterOrder.stored callsRLoad () =
      some (⟨Res.ret (), [⟨"a", Ptr.ref 1, Res.ret true⟩], ()⟩, ⟨RWMutex.free, tableA⟩) ∧
    tableA.RangeRe IterOrder.stored callsTLoad () =
      some (⟨Res.ret (), [⟨"a", Ptr.ref 1, Res.ret true⟩], ()⟩, tableA) ∧
    ((SyncMap.mk Mutex.unlocked tableA).RangeRe IterOrder.stored callsLoad ()).isSome ≠
      ((RWMap.mk RWMutex.free tableA).RangeRe IterOrder.stored callsRLoad ()).isSome :=
  ⟨rfl, rfl, rfl, rfl, rfl, rfl, by decide⟩

end AsyncTools
